import Mathlib

/-!
# PBrowse: markup extractor and tab/session state machine

A shallow embedding of `src/PBrowse.cpp`.

* `std::string` is a list of characters (`Str`), one character for one `char`; positions
  are natural numbers and `std::string::npos` is `none`.  Nothing depends on a character
  being below 256.
* `parse_html` follows the source loop index by index.
* The body of the event loop is `handle_event`; the variables local to `main` that survive
  an iteration are the fields of `Session`.
* `load_url` (libcurl) is a parameter `load : Str → Str`; the absolute path of the start
  page is a parameter `start_url`.
* Loops whose bound changes while they run (`tagname_loop`, `tab_loop`) take an iteration
  bound; the callers pass one that is never reached (`tagname_loop_eq`,
  `tab_loop_fuel`).
* `parse_html_chk` repeats the loop of `parse_html` with every string access checked;
  it is only used to state that no access is out of range.
* Where the source's behaviour is undefined, `handle_event` still returns a session and
  `handle_event_chk` returns `none`.  That is the case when an `int` operation overflows
  (`scroll_offset`, the pixel coordinates `tx`, `y`, `lx + lw`), when `tabs[current_tab]`
  is outside the vector, and when the link loop goes on after it has replaced the vector
  it iterates over (line 212), that is after a hit on a fragment that is not the last one.
  In those cases `handle_event` carries on with two's-complement values (`wrap32` for
  `scroll_offset`), unbounded pixel coordinates and the fragments the loop was entered
  with.  Wherever `handle_event_chk` returns a session it is the one `handle_event`
  returns (`handle_event_chk_sound`).  What is stated about scroll arithmetic and about
  followed links is stated on `handle_event_chk`.
* The conversion `int lw = it.text.size()*8` is modular: `lw` is `wrap32` of the product.
-/

namespace PBrowse

/-! ## Strings -/

/-- A `std::string`, as the sequence of its characters. -/
abbrev Str := List Char

/-- The double-quote character. -/
def dquote : Char := Char.ofNat 34

/-- The `isspace` of the C locale: space, `\t`, `\n`, `\v`, `\f`, `\r`. -/
def isspace (c : Char) : Bool :=
  c.toNat = 32 || (9 ≤ c.toNat && c.toNat ≤ 13)

/-- The `tolower` of the C locale: `A`..`Z` go to `a`..`z`, everything else is kept. -/
def tolower (c : Char) : Char :=
  if 65 ≤ c.toNat ∧ c.toNat ≤ 90 then Char.ofNat (c.toNat + 32) else c

/-- Search of `pat` in the suffix `s` whose first character has position `k`. -/
def find_aux (pat : Str) : Str → Nat → Option Nat
  | [], k => if pat = [] then some k else none
  | c :: tl, k => if pat.isPrefixOf (c :: tl) then some k else find_aux pat tl (k + 1)

/-- The call `s.find(pat, pos)`: the lowest position `≥ pos` at which `pat` occurs, `none` for `npos`. -/
def find (s pat : Str) (pos : Nat) : Option Nat :=
  if pos ≤ s.length then find_aux pat (s.drop pos) pos else none

/-- The call `s.find(c, pos)` for a single character. -/
def find_char (s : Str) (c : Char) (pos : Nat) : Option Nat :=
  find s [c] pos

/-- The call `s.substr(pos, len)`. -/
def substr (s : Str) (pos len : Nat) : Str :=
  (s.drop pos).take len

/-! ## Fragment model -/

/-- The `struct DisplayItem`: `link` is empty if the item is not a link. -/
structure DisplayItem where
  text : Str
  link : Str
deriving DecidableEq, Repr

/-- The `struct Tab`. -/
structure Tab where
  url : Str
  title : Str
  items : List DisplayItem
deriving DecidableEq, Repr

/-! ## `parse_html` -/

/-- The local variables of `parse_html` that live across loop iterations. -/
structure ParseState where
  items : List DisplayItem
  in_tag : Bool
  in_link : Bool
  text : Str
  href : Str
deriving DecidableEq, Repr

/-- The loop
`while(j<html.size() && html[j]!='>' && !isspace(html[j])) tagname+=tolower(html[j++]);`
the first argument bounds the number of iterations (`html.size()` is always enough). -/
def tagname_loop (html : Str) : Nat → Nat → Str → Str
  | 0, _, tagname => tagname
  | fuel + 1, j, tagname =>
    match html[j]? with
    | none => tagname
    | some c =>
      if c ≠ '>' ∧ isspace c = false then
        tagname_loop html fuel (j + 1) (tagname ++ [tolower c])
      else tagname

/-- The value of `href` after the `if(href_pos!=npos)` block of an opening `a` tag that
starts at position `i`.  `start+1` wraps to `0` when `start` is `npos`. -/
def scan_href (html : Str) (i : Nat) (href : Str) : Str :=
  match find html "href=".toList i with
  | none => href
  | some href_pos =>
    let start := find_char html dquote href_pos
    let stop := find_char html dquote (match start with | some s => s + 1 | none => 0)
    match start, stop with
    | some s, some e => substr html (s + 1) (e - s - 1)
    | _, _ => href

/-- The call `items.push_back({text,in_link?href:""})`. -/
def push_item (st : ParseState) : List DisplayItem :=
  st.items ++ [⟨st.text, if st.in_link then st.href else []⟩]

/-- One iteration of the `for` loop of `parse_html`, at index `i`. -/
def parse_step (html : Str) (st : ParseState) (i : Nat) : ParseState :=
  match html[i]? with
  | none => st
  | some c =>
    if c = '<' then
      let st1 : ParseState :=
        if st.text ≠ [] then { st with items := push_item st, text := [] } else st
      let j := i + 1
      let closing : Bool := decide (html[j]? = some '/')
      let j := if closing then j + 1 else j
      let tagname := tagname_loop html html.length j []
      let st2 : ParseState :=
        if tagname = ['a'] ∧ closing = false then
          { st1 with in_tag := true, in_link := true, href := scan_href html i st1.href }
        else { st1 with in_tag := true }
      if closing = true ∧ tagname = ['a'] then { st2 with in_link := false } else st2
    else if c = '>' then { st with in_tag := false }
    else if st.in_tag = false then { st with text := st.text ++ [c] }
    else st

/-- The state of `parse_html` before the loop. -/
def parse_init : ParseState :=
  { items := [], in_tag := false, in_link := false, text := [], href := [] }

/-- The last statement of `parse_html`: flush the pending text and return `items`. -/
def parse_finish (st : ParseState) : List DisplayItem :=
  if st.text ≠ [] then push_item st else st.items

/-- The function `std::vector<DisplayItem> parse_html(const std::string &html)`. -/
def parse_html (html : Str) : List DisplayItem :=
  parse_finish ((List.range html.length).foldl (parse_step html) parse_init)

/-! ## Session -/

/-- The variables of `main` that persist across events. -/
structure Session where
  tabs : List Tab
  current_tab : Int
  scroll_offset : Int
  url_text : Str
  search_text : Str
  url_active : Bool
  search_active : Bool
  running : Bool
deriving DecidableEq, Repr

/-- Keys told apart by the `SDL_KEYDOWN` handler. -/
inductive Key where
  | backspace
  | tab
  | ret
  | down
  | up
  | other
deriving DecidableEq, Repr

/-- Events told apart by the event loop. -/
inductive Event where
  | quit
  | textInput (text : Str)
  | keyDown (sym : Key)
  | mouseWheel (y : Int)
  | mouseButtonDown (x y : Int)
  | other
deriving DecidableEq, Repr

/-- Two's-complement reduction of an integer to a 32-bit `int`: the value of a conversion
to `int`, and the value `handle_event` carries on with where the source's `int` arithmetic
overflows (undefined in the source, `none` in `handle_event_chk`). -/
def wrap32 (x : Int) : Int :=
  (x + 2147483648) % 4294967296 - 2147483648

/-- The constant `int tab_height=18`. -/
def tab_height : Int := 18

/-- The constant `int url_height=16`. -/
def url_height : Int := 16

/-- The constant `int search_height=16`. -/
def search_height : Int := 16

/-- The test `mx>=r.x && mx<r.x+r.w && my>=r.y && my<r.y+r.h` for the rectangle `{x,y,w,h}`. -/
def in_rect (mx my x y w h : Int) : Bool :=
  decide (mx ≥ x ∧ mx < x + w ∧ my ≥ y ∧ my < y + h)

/-- The element `tabs[c]` for an `int` index; an index outside the vector reads nothing. -/
def tab_at (tabs : List Tab) (c : Int) : Option Tab :=
  if 0 ≤ c then tabs[c.toNat]? else none

/-- Assignment to the fields of `tabs[c]`; an index outside the vector writes nothing. -/
def set_tab (tabs : List Tab) (c : Int) (t : Tab) : List Tab :=
  if 0 ≤ c then tabs.set c.toNat t else tabs

/-- The normalization common to the URL bar and to link clicks:
`if(u.find("http")!=0 && u.find("file://")!=0) u="http://"+u;`. -/
def normalize (u : Str) : Str :=
  if find u "http".toList 0 ≠ some 0 ∧ find u "file://".toList 0 ≠ some 0 then
    "http://".toList ++ u
  else u

/-- The three assignments `tabs[current_tab].url=u; .title=title; .items=parse_html(load_url(u));`. -/
def load_into (load : Str → Str) (tabs : List Tab) (c : Int) (u title : Str) : List Tab :=
  set_tab tabs c { url := u, title := title, items := parse_html (load u) }

/-- The body of the `url_active` branch of `SDLK_RETURN`, with `raw` for `url_text`. -/
def navigate (load : Str → Str) (s : Session) (raw : Str) : Session :=
  let full_url := normalize raw
  { s with
    tabs := load_into load s.tabs s.current_tab full_url full_url
    url_text := []
    scroll_offset := 0 }

/-- The body of the `search_active` branch of `SDLK_RETURN`, with `query` for `search_text`. -/
def submit_search (load : Str → Str) (s : Session) (query : Str) : Session :=
  let search_url := "https://www.google.com/search?q=".toList ++ query
  { s with
    tabs := load_into load s.tabs s.current_tab search_url "Search".toList
    search_text := []
    scroll_offset := 0 }

/-- The close block of the click handler for slot `i`:
`if(tabs.size() > 1) { tabs.erase(tabs.begin()+i); ... }`. -/
def close_tab (tabs : List Tab) (current_tab : Int) (i : Nat) : List Tab × Int :=
  if tabs.length > 1 then
    (tabs.eraseIdx i,
      if current_tab = (i : Int) then (if i = 0 then 0 else (i : Int) - 1)
      else if current_tab > (i : Int) then current_tab - 1
      else current_tab)
  else (tabs, current_tab)

/-- The tab bar loop `for(int i=0;i<tabs.size();i++)` of the click handler, from index `i`
with `tx` already advanced; the first argument bounds the number of iterations.
Returns `tabs`, `current_tab` and the final `tx`. -/
def tab_loop (mx my : Int) : Nat → Nat → Int → List Tab → Int → List Tab × Int × Int
  | 0, _, tx, tabs, current_tab => (tabs, current_tab, tx)
  | fuel + 1, i, tx, tabs, current_tab =>
    if i < tabs.length then
      let current_tab :=
        if in_rect mx my tx 0 150 tab_height then (i : Int) else current_tab
      let closed :=
        if in_rect mx my (tx + 140) 0 10 tab_height then close_tab tabs current_tab i
        else (tabs, current_tab)
      tab_loop mx my fuel (i + 1) (tx + 150) closed.1 closed.2
    else (tabs, current_tab, tx)

/-- The plus button block: a new start tab is appended and selected. -/
def open_tab (load : Str → Str) (start_url : Str) (tabs : List Tab) : List Tab × Int :=
  let newtab : Tab :=
    { url := start_url, title := "Start Page".toList, items := parse_html (load start_url) }
  let tabs := tabs ++ [newtab]
  (tabs, (tabs.length : Int) - 1)

/-- The body of the link loop for one fragment with a non-empty link that was hit:
the assignments of lines 207 to 213. -/
def follow_link (load : Str → Str) (tabs : List Tab) (current_tab : Int) (link : Str) :
    List Tab × Int :=
  let link_url := normalize link
  (load_into load tabs current_tab link_url link_url, 0)

/-- The link loop `for(auto &it: tabs[current_tab].items)`, `y` being the running offset;
carries `tabs` and `scroll_offset`.  After a hit the source goes on over the vector it has
just replaced, which is undefined unless the loop ends there; this function goes on over
the fragments the loop was entered with (`link_loop_chk` gives `none` instead). -/
def link_loop (load : Str → Str) (mx my : Int) (current_tab : Int) :
    List DisplayItem → Int → List Tab × Int → List Tab × Int
  | [], _, acc => acc
  | it :: rest, y, acc =>
    let lx : Int := 10
    let ly : Int := (tab_height + url_height + search_height + 4) + y
    let lw : Int := wrap32 ((it.text.length : Int) * 8)
    let lh : Int := 8
    let acc :=
      if it.link ≠ [] ∧ mx ≥ lx ∧ mx < lx + lw ∧ my ≥ ly ∧ my < ly + lh then
        follow_link load acc.1 current_tab it.link
      else acc
    link_loop load mx my current_tab rest (y + 10) acc

/-- The `SDL_MOUSEBUTTONDOWN` handler. -/
def mouse_down (load : Str → Str) (start_url : Str) (s : Session) (mx my : Int) : Session :=
  let r := tab_loop mx my s.tabs.length 0 0 s.tabs s.current_tab
  let tabs := r.1
  let current_tab := r.2.1
  let tx := r.2.2
  let opened :=
    if in_rect mx my tx 0 18 tab_height then open_tab load start_url tabs
    else (tabs, current_tab)
  let tabs := opened.1
  let current_tab := opened.2
  let items := match tab_at tabs current_tab with
    | some t => t.items
    | none => []
  let clicked := link_loop load mx my current_tab items (0 - s.scroll_offset) (tabs, s.scroll_offset)
  { s with tabs := clicked.1, current_tab := current_tab, scroll_offset := clicked.2 }

/-- The statement `if(scroll_offset<0) scroll_offset=0;`. -/
def clamp_scroll (s : Session) : Session :=
  if s.scroll_offset < 0 then { s with scroll_offset := 0 } else s

/-- The `SDL_KEYDOWN` handler. -/
def key_down (load : Str → Str) (s : Session) : Key → Session
  | Key.backspace =>
    let s1 := if s.url_active = true ∧ s.url_text ≠ [] then
        { s with url_text := s.url_text.dropLast } else s
    let s2 := if s1.search_active = true ∧ s1.search_text ≠ [] then
        { s1 with search_text := s1.search_text.dropLast } else s1
    clamp_scroll s2
  | Key.tab =>
    clamp_scroll { s with url_active := !s.url_active, search_active := !s.search_active }
  | Key.ret =>
    clamp_scroll
      (if s.url_active = true ∧ s.url_text ≠ [] then navigate load s s.url_text
       else if s.search_active = true ∧ s.search_text ≠ [] then submit_search load s s.search_text
       else s)
  | Key.down => clamp_scroll { s with scroll_offset := wrap32 (s.scroll_offset + 10) }
  | Key.up => clamp_scroll { s with scroll_offset := wrap32 (s.scroll_offset - 10) }
  | Key.other => clamp_scroll s

/-- One iteration of `while(SDL_PollEvent(&e))`. -/
def handle_event (load : Str → Str) (start_url : Str) (s : Session) : Event → Session
  | Event.quit => { s with running := false }
  | Event.textInput text =>
    if s.url_active = true then { s with url_text := s.url_text ++ text }
    else if s.search_active = true then { s with search_text := s.search_text ++ text }
    else s
  | Event.keyDown sym => key_down load s sym
  | Event.mouseWheel y =>
    clamp_scroll { s with scroll_offset := wrap32 (s.scroll_offset - wrap32 (y * 10)) }
  | Event.mouseButtonDown x y => mouse_down load start_url s x y
  | Event.other => s

/-- The session `main` enters the event loop with. -/
def initial_session (load : Str → Str) (start_url : Str) : Session :=
  { tabs := [{ url := start_url, title := "Start Page".toList,
               items := parse_html (load start_url) }]
    current_tab := 0
    scroll_offset := 0
    url_text := []
    search_text := []
    url_active := true
    search_active := false
    running := true }

/-- The session after the events `es`, processed in order from `s`. -/
def run (load : Str → Str) (start_url : Str) (s : Session) (es : List Event) : Session :=
  es.foldl (handle_event load start_url) s

/-- The tab-index invariant on a tab list and a current index. -/
def valid_index (tabs : List Tab) (current_tab : Int) : Prop :=
  0 ≤ current_tab ∧ current_tab < (tabs.length : Int)

/-! ## Example sessions -/

/-- The session of the close-click example: three tabs, the last one current. -/
def three_tabs : Session :=
  { tabs := [⟨['a'], ['a'], []⟩, ⟨['b'], ['b'], []⟩, ⟨['c'], ['c'], []⟩]
    current_tab := 2
    scroll_offset := 0
    url_text := []
    search_text := []
    url_active := true
    search_active := false
    running := true }


/-- A one-tab session whose page holds one link, with text typed in both bars and the
search bar focused. -/
def link_session : Session :=
  { tabs := [⟨['u'], ['t'], [⟨['a', 'b'], ['h', 't', 't', 'p', ':', 'y']⟩]⟩]
    current_tab := 0
    scroll_offset := 0
    url_text := ['x']
    search_text := ['q']
    url_active := false
    search_active := true
    running := true }

/-- The values of a 32-bit `int`. -/
def fits_int32 (x : Int) : Prop :=
  -2147483648 ≤ x ∧ x ≤ 2147483647

instance (x : Int) : Decidable (fits_int32 x) := by
  unfold fits_int32
  infer_instance

/-! ## `parse_html` by suffixes

The loop of `parse_html` only ever looks forward from its index, so it can be unrolled
along the suffixes of the input: `parse_html_eq_suffix` below. -/

/-- The characters `tagname_loop` goes over: neither `>` nor white space. -/
def name_char (c : Char) : Bool :=
  decide (c ≠ '>') && !isspace c

/-- What `tagname_loop` collects when it starts at the head of `rest`. -/
def tag_name (rest : Str) : Str :=
  (rest.takeWhile name_char).map tolower

/-- The loop of `parse_html` on the suffix still to be read: each step is `parse_step` at
index `0` of that suffix. -/
def parse_suffix : Str → ParseState → ParseState
  | [], st => st
  | c :: tl, st => parse_suffix tl (parse_step (c :: tl) st 0)

/-- A string without angle brackets. -/
def bracket_free (t : Str) : Prop :=
  '<' ∉ t ∧ '>' ∉ t

instance (t : Str) : Decidable (bracket_free t) := by
  unfold bracket_free
  infer_instance

/-- The body of a tag (what stands between `<` and `>`) is that of an opening tag named
`a`, in either case: the letter, then the end of the body or white space. -/
def names_anchor : Str → Bool
  | [] => false
  | c :: rest =>
    (c == 'a' || c == 'A') &&
      (match rest with
        | [] => true
        | w :: _ => isspace w)

/-- The markup `t0 <body1> t1 ... <bodyn> tn`, the tags given as pairs of a tag body and
the text that follows the tag. -/
def markup : Str → List (Str × Str) → Str
  | t0, [] => t0
  | t0, (body, t) :: segs => t0 ++ '<' :: (body ++ '>' :: markup t segs)

/-- The non-empty strings of `ts`, in order, each as a fragment with an empty link. -/
def text_items (ts : List Str) : List DisplayItem :=
  (ts.filter (fun t => decide (t ≠ []))).map (fun t => ⟨t, []⟩)

/-- The markup `<a href="u">t</a>`, with `o` for the letter of the opening tag and `c` for
the letter of the closing tag. -/
def anchor_markup (o c : Char) (u t : Str) : Str :=
  '<' :: o :: (" href=".toList ++ dquote :: (u ++ dquote :: '>' :: (t ++ ['<', '/', c, '>'])))

/-- The single-quote character. -/
def squote : Char := Char.ofNat 39

/-- The markup `<a href='u'>t</a>` followed by `s`: an anchor whose attribute value is in
single quotes. -/
def single_quoted_anchor (u t s : Str) : Str :=
  "<a href=".toList ++ squote :: (u ++ squote :: '>' :: (t ++ "</a>".toList ++ s))

/-! ## An example fetcher -/

/-- A fetcher: the start page `file:///s` holds one link to `http://x` with a text of 20
characters, every other URL gives the text `y`. -/
def page_load (u : Str) : Str :=
  if u = "file:///s".toList then "<a href=\"http://x\">abcdefghijklmnopqrst</a>".toList
  else ['y']

/-- The session after the events `es` from the initial session on the example start page. -/
def page_run (es : List Event) : Session :=
  run page_load "file:///s".toList (initial_session page_load "file:///s".toList) es

/-! ## The text of the fragments -/

/-- The text fields of a sequence of fragments, concatenated in order. -/
def concat_texts : List DisplayItem → Str
  | [] => []
  | it :: rest => it.text ++ concat_texts rest

/-- An angle bracket. -/
def is_bracket (c : Char) : Bool :=
  c == '<' || c == '>'

/-- The nearest angle bracket of `pre`, seen from its end, if it has one. -/
def last_bracket (pre : Str) : Option Char :=
  pre.reverse.find? is_bracket

/-- The characters of a string that stands after `pre`, without every `<`, every `>` and
every character whose nearest preceding angle bracket (in `pre` and what was read since)
is a `<`; the others are kept in order. -/
def tag_stripped_from (pre : Str) : Str → Str
  | [] => []
  | c :: tl =>
    (if is_bracket c = true ∨ last_bracket pre = some '<' then [] else [c]) ++
      tag_stripped_from (pre ++ [c]) tl

/-- The input without its tags: see `tag_stripped_from`. -/
def tag_stripped (html : Str) : Str :=
  tag_stripped_from [] html

/-! ## `parse_html` with checked accesses

The same loop, every `html[j]` and the `substr` call made explicit: a read at an index
outside the string, or a `substr` whose positions are not `start < end < html.size()`,
ends the run with `none`. -/

/-- A read `html[j]`: `none` when `j` is not below `html.size()`. -/
def read_at (html : Str) (j : Nat) : Option Char :=
  html[j]?

/-- The loop of `tagname_loop`, the guard `j<html.size()` evaluated before `html[j]` is
read. -/
def tagname_loop_chk (html : Str) : Nat → Nat → Str → Option Str
  | 0, _, tagname => some tagname
  | fuel + 1, j, tagname =>
    if j < html.length then
      match read_at html j with
      | none => none
      | some c =>
        if c ≠ '>' ∧ isspace c = false then
          tagname_loop_chk html fuel (j + 1) (tagname ++ [tolower c])
        else some tagname
    else some tagname

/-- The href scan of `scan_href`, with `substr(start+1, end-start-1)` taken only when
`start < end < html.size()`. -/
def scan_href_chk (html : Str) (i : Nat) (href : Str) : Option Str :=
  match find html "href=".toList i with
  | none => some href
  | some href_pos =>
    let start := find_char html dquote href_pos
    let stop := find_char html dquote (match start with | some s => s + 1 | none => 0)
    match start, stop with
    | some s, some e =>
      if s < e ∧ e < html.length then some (substr html (s + 1) (e - s - 1)) else none
    | _, _ => some href

/-- The test `j<html.size() && html[j]=='/'`, the read made only when the guard holds. -/
def closing_chk (html : Str) (j : Nat) : Option Bool :=
  if j < html.length then (read_at html j).map (fun d => decide (d = '/')) else some false

/-- One iteration of the `for` loop of `parse_html` at index `i`, with checked accesses. -/
def parse_step_chk (html : Str) (st : ParseState) (i : Nat) : Option ParseState :=
  match read_at html i with
  | none => none
  | some c =>
    if c = '<' then
      let st1 : ParseState :=
        if st.text ≠ [] then { st with items := push_item st, text := [] } else st
      let j := i + 1
      match closing_chk html j with
      | none => none
      | some closing =>
        let j := if closing then j + 1 else j
        match tagname_loop_chk html html.length j [] with
        | none => none
        | some tagname =>
          let st2 : Option ParseState :=
            if tagname = ['a'] ∧ closing = false then
              (scan_href_chk html i st1.href).map
                (fun h => { st1 with in_tag := true, in_link := true, href := h })
            else some { st1 with in_tag := true }
          st2.map (fun s2 =>
            if closing = true ∧ tagname = ['a'] then { s2 with in_link := false } else s2)
    else if c = '>' then some { st with in_tag := false }
    else if st.in_tag = false then some { st with text := st.text ++ [c] }
    else some st

/-- The loop of `parse_html` over the indices `is`, with checked accesses. -/
def parse_loop_chk (html : Str) : List Nat → ParseState → Option ParseState
  | [], st => some st
  | i :: is, st =>
    match parse_step_chk html st i with
    | none => none
    | some st2 => parse_loop_chk html is st2

/-- The function `parse_html` with checked accesses: `none` when an access is out of
range. -/
def parse_html_chk (html : Str) : Option (List DisplayItem) :=
  (parse_loop_chk html (List.range html.length) parse_init).map parse_finish

/-! ## The event handlers with undefined behaviour made explicit

The handlers again, returning `none` where the behaviour of the source is undefined: an
`int` operation whose result is not a 32-bit `int`, `tabs[current_tab]` outside the
vector, an iteration of the link loop after the vector it iterates over was replaced. -/

/-- The result of an `int` operation: `none` when the exact value is not a 32-bit `int`. -/
def int32 (x : Int) : Option Int :=
  if fits_int32 x then some x else none

/-- The test `mx>=r.x && mx<r.x+r.w && my>=r.y && my<r.y+r.h`, each sum computed only when
the tests before it hold. -/
def in_rect_chk (mx my x y w h : Int) : Option Bool :=
  if mx ≥ x then
    match int32 (x + w) with
    | none => none
    | some xw =>
      if mx < xw then
        if my ≥ y then (int32 (y + h)).map (fun yh => decide (my < yh))
        else some false
      else some false
  else some false

/-- The tab bar loop of `tab_loop` with checked `tx + 140`, rectangle tests and
`tx += 150`. -/
def tab_loop_chk (mx my : Int) :
    Nat → Nat → Int → List Tab → Int → Option (List Tab × Int × Int)
  | 0, _, tx, tabs, current_tab => some (tabs, current_tab, tx)
  | fuel + 1, i, tx, tabs, current_tab =>
    if i < tabs.length then
      match int32 (tx + 140), in_rect_chk mx my tx 0 150 tab_height with
      | some cx, some b1 =>
        let current_tab := if b1 then (i : Int) else current_tab
        match in_rect_chk mx my cx 0 10 tab_height, int32 (tx + 150) with
        | some b2, some tx2 =>
          let closed := if b2 then close_tab tabs current_tab i else (tabs, current_tab)
          tab_loop_chk mx my fuel (i + 1) tx2 closed.1 closed.2
        | _, _ => none
      | _, _ => none
    else some (tabs, current_tab, tx)

/-- The link loop of `link_loop` with checked `content_area.y + y`, rectangle test and
`y += 10`; after a hit the loop must end, the vector it iterates over being replaced. -/
def link_loop_chk (load : Str → Str) (mx my : Int) (current_tab : Int) :
    List DisplayItem → Int → List Tab × Int → Option (List Tab × Int)
  | [], _, acc => some acc
  | it :: rest, y, acc =>
    if it.link ≠ [] then
      match int32 ((tab_height + url_height + search_height + 4) + y) with
      | none => none
      | some ly =>
        match in_rect_chk mx my 10 ly (wrap32 ((it.text.length : Int) * 8)) 8, int32 (y + 10) with
        | some true, some _ =>
          if rest = [] then some (follow_link load acc.1 current_tab it.link) else none
        | some false, some y2 => link_loop_chk load mx my current_tab rest y2 acc
        | _, _ => none
    else
      match int32 (y + 10) with
      | none => none
      | some y2 => link_loop_chk load mx my current_tab rest y2 acc

/-- The `SDL_MOUSEBUTTONDOWN` handler of `mouse_down`, checked. -/
def mouse_down_chk (load : Str → Str) (start_url : Str) (s : Session) (mx my : Int) :
    Option Session :=
  match tab_loop_chk mx my s.tabs.length 0 0 s.tabs s.current_tab with
  | none => none
  | some r =>
    match in_rect_chk mx my r.2.2 0 18 tab_height with
    | none => none
    | some plus =>
      let opened := if plus then open_tab load start_url r.1 else (r.1, r.2.1)
      match tab_at opened.1 opened.2, int32 (0 - s.scroll_offset) with
      | some t, some y =>
        (link_loop_chk load mx my opened.2 t.items y (opened.1, s.scroll_offset)).map
          (fun clicked =>
            { s with tabs := clicked.1, current_tab := opened.2, scroll_offset := clicked.2 })
      | _, _ => none

/-- The `SDL_KEYDOWN` handler of `key_down`, checked. -/
def key_down_chk (load : Str → Str) (s : Session) : Key → Option Session
  | Key.ret =>
    if (s.url_active = true ∧ s.url_text ≠ []) ∨
        (s.search_active = true ∧ s.search_text ≠ []) then
      (tab_at s.tabs s.current_tab).map (fun _ => key_down load s Key.ret)
    else some (key_down load s Key.ret)
  | Key.down =>
    (int32 (s.scroll_offset + 10)).map (fun v => clamp_scroll { s with scroll_offset := v })
  | Key.up =>
    (int32 (s.scroll_offset - 10)).map (fun v => clamp_scroll { s with scroll_offset := v })
  | k => some (key_down load s k)

/-- One iteration of `while(SDL_PollEvent(&e))`, checked: `scroll_offset -= e.wheel.y * 10`
computes the product, then the difference. -/
def handle_event_chk (load : Str → Str) (start_url : Str) (s : Session) :
    Event → Option Session
  | Event.keyDown sym => key_down_chk load s sym
  | Event.mouseWheel y =>
    match int32 (y * 10) with
    | none => none
    | some d =>
      (int32 (s.scroll_offset - d)).map
        (fun v => clamp_scroll { s with scroll_offset := v })
  | Event.mouseButtonDown x y => mouse_down_chk load start_url s x y
  | e => some (handle_event load start_url s e)

/-- The session after the events `es`, processed in order from `s`, checked. -/
def run_chk (load : Str → Str) (start_url : Str) : Session → List Event → Option Session
  | s, [] => some s
  | s, e :: es =>
    match handle_event_chk load start_url s e with
    | none => none
    | some s2 => run_chk load start_url s2 es
/-! ## The tab list under the handlers -/

theorem set_tab_length (tabs : List Tab) (c : Int) (t : Tab) :
    (set_tab tabs c t).length = tabs.length := by
  unfold set_tab
  split <;> simp

theorem load_into_length (load : Str → Str) (tabs : List Tab) (c : Int) (u title : Str) :
    (load_into load tabs c u title).length = tabs.length :=
  set_tab_length _ _ _

theorem close_tab_valid (tabs : List Tab) (cur : Int) (i : Nat)
    (hi : i < tabs.length) (hc : valid_index tabs cur) :
    valid_index (close_tab tabs cur i).1 (close_tab tabs cur i).2 := by
  unfold close_tab valid_index at *
  split
  · rename_i h1
    have hlen : (tabs.eraseIdx i).length = tabs.length - 1 := by
      rw [List.length_eraseIdx, if_pos hi]
    simp only [hlen]
    split
    · split <;> omega
    · split <;> omega
  · exact hc

theorem tab_loop_valid (mx my : Int) (fuel i : Nat) (tx : Int) (tabs : List Tab) (cur : Int)
    (hc : valid_index tabs cur) :
    valid_index (tab_loop mx my fuel i tx tabs cur).1 (tab_loop mx my fuel i tx tabs cur).2.1 := by
  induction fuel generalizing i tx tabs cur with
  | zero => simpa [tab_loop] using hc
  | succ n ih =>
    rw [tab_loop]
    split
    · rename_i hi
      apply ih
      have hsel : valid_index tabs (if in_rect mx my tx 0 150 tab_height then (i : Int) else cur) := by
        split
        · exact ⟨by omega, by omega⟩
        · exact hc
      split
      · exact close_tab_valid _ _ _ hi hsel
      · exact hsel
    · exact hc

theorem close_tab_length_le (tabs : List Tab) (cur : Int) (i : Nat) :
    (close_tab tabs cur i).1.length ≤ tabs.length := by
  unfold close_tab
  split
  · simp only [List.length_eraseIdx]
    split <;> omega
  · exact le_refl _

theorem tab_loop_fuel (mx my : Int) (fuel extra i : Nat) (tx : Int) (tabs : List Tab)
    (cur : Int) (h : tabs.length ≤ i + fuel) :
    tab_loop mx my (fuel + extra) i tx tabs cur = tab_loop mx my fuel i tx tabs cur := by
  induction fuel generalizing i tx tabs cur with
  | zero =>
    cases extra with
    | zero => rfl
    | succ e =>
      rw [Nat.zero_add, tab_loop, tab_loop, if_neg (by omega)]
  | succ n ih =>
    rw [show n + 1 + extra = (n + extra) + 1 by omega, tab_loop, tab_loop]
    split
    · apply ih
      split
      · have := close_tab_length_le tabs
          (if in_rect mx my tx 0 150 tab_height then (i : Int) else cur) i
        omega
      · simp only
        omega
    · rfl

theorem open_tab_valid (load : Str → Str) (start_url : Str) (tabs : List Tab) :
    valid_index (open_tab load start_url tabs).1 (open_tab load start_url tabs).2 := by
  simp [open_tab, valid_index]

theorem link_loop_length (load : Str → Str) (mx my cur : Int) (items : List DisplayItem)
    (y : Int) (acc : List Tab × Int) :
    (link_loop load mx my cur items y acc).1.length = acc.1.length := by
  induction items generalizing y acc with
  | nil => rfl
  | cons it rest ih =>
    rw [link_loop, ih]
    split
    · simp [follow_link, load_into_length]
    · rfl

theorem mouse_down_valid (load : Str → Str) (start_url : Str) (s : Session) (mx my : Int)
    (h : valid_index s.tabs s.current_tab) :
    valid_index (mouse_down load start_url s mx my).tabs
      (mouse_down load start_url s mx my).current_tab := by
  have h1 := tab_loop_valid mx my s.tabs.length 0 0 s.tabs s.current_tab h
  unfold mouse_down
  simp only [valid_index, link_loop_length]
  split
  · exact open_tab_valid _ _ _
  · exact h1

theorem clamp_scroll_tabs (s : Session) :
    (clamp_scroll s).tabs = s.tabs ∧ (clamp_scroll s).current_tab = s.current_tab := by
  unfold clamp_scroll
  split <;> simp

theorem key_down_valid (load : Str → Str) (s : Session) (k : Key)
    (h : valid_index s.tabs s.current_tab) :
    valid_index (key_down load s k).tabs (key_down load s k).current_tab := by
  cases k <;> simp only [key_down, (clamp_scroll_tabs _).1, (clamp_scroll_tabs _).2]
  · split <;> split <;> exact h
  · exact h
  · split
    · simpa [navigate, valid_index, load_into_length] using h
    · split
      · simpa [submit_search, valid_index, load_into_length] using h
      · exact h
  · exact h
  · exact h
  · exact h

theorem handle_event_valid (load : Str → Str) (start_url : Str) (s : Session) (e : Event)
    (h : valid_index s.tabs s.current_tab) :
    valid_index (handle_event load start_url s e).tabs
      (handle_event load start_url s e).current_tab := by
  cases e with
  | quit => exact h
  | textInput t =>
    simp only [handle_event]
    split
    · exact h
    · split <;> exact h
  | keyDown k => exact key_down_valid load s k h
  | mouseWheel y => simpa [handle_event, (clamp_scroll_tabs _).1, (clamp_scroll_tabs _).2] using h
  | mouseButtonDown x y => exact mouse_down_valid load start_url s x y h
  | other => exact h

theorem run_valid (load : Str → Str) (start_url : Str) (es : List Event) (s : Session)
    (h : valid_index s.tabs s.current_tab) :
    valid_index (run load start_url s es).tabs (run load start_url s es).current_tab := by
  induction es generalizing s with
  | nil => exact h
  | cons e es ih => exact ih _ (handle_event_valid load start_url s e h)

/-! ## `find` at position zero and `normalize` -/

theorem find_aux_ge (pat s : Str) (k r : Nat) (h : find_aux pat s k = some r) : k ≤ r := by
  induction s generalizing k with
  | nil =>
    simp only [find_aux] at h
    split at h <;> simp at h
    omega
  | cons c tl ih =>
    simp only [find_aux] at h
    split at h
    · simp at h; omega
    · have := ih _ h
      omega

theorem find_zero_iff (u pat : Str) : find u pat 0 = some 0 ↔ pat <+: u := by
  cases u with
  | nil =>
    simp only [find, List.length_nil, le_refl, if_true, List.drop_nil, find_aux, List.prefix_nil]
    split <;> simp_all
  | cons c tl =>
    simp only [find, Nat.zero_le, if_true, List.drop_zero, find_aux]
    split
    · rename_i h
      simpa using List.isPrefixOf_iff_prefix.mp h
    · rename_i h
      constructor
      · intro h1
        have := find_aux_ge _ _ _ _ h1
        omega
      · intro h1
        exact absurd (List.isPrefixOf_iff_prefix.mpr h1) h

theorem normalize_eq (u : Str) :
    normalize u =
      if "http".toList <+: u ∨ "file://".toList <+: u then u else "http://".toList ++ u := by
  unfold normalize
  simp only [ne_eq, find_zero_iff]
  by_cases h : "http".toList <+: u ∨ "file://".toList <+: u
  · rw [if_pos h, if_neg (by tauto)]
  · rw [if_neg h, if_pos (by tauto)]


/-! ## Writes to the current tab -/

theorem set_tab_eq (tabs : List Tab) (c : Int) (t : Tab) (h : 0 ≤ c) :
    set_tab tabs c t = tabs.set c.toNat t := by
  simp [set_tab, h]

theorem clamp_scroll_of_nonneg (s : Session) (h : 0 ≤ s.scroll_offset) : clamp_scroll s = s := by
  unfold clamp_scroll
  rw [if_neg (by omega)]

theorem key_ret_url (load : Str → Str) (s : Session)
    (hf : s.url_active = true) (hb : s.url_text ≠ []) :
    key_down load s Key.ret = navigate load s s.url_text := by
  simp only [key_down]
  rw [if_pos ⟨hf, hb⟩]
  exact clamp_scroll_of_nonneg _ (by simp [navigate])

theorem key_ret_search (load : Str → Str) (s : Session)
    (hu : s.url_active = false) (hs : s.search_active = true) (hq : s.search_text ≠ []) :
    key_down load s Key.ret = submit_search load s s.search_text := by
  simp only [key_down]
  rw [if_neg (by simp [hu]), if_pos ⟨hs, hq⟩]
  exact clamp_scroll_of_nonneg _ (by simp [submit_search])

/-! ## The click handler away from the tab bar -/

theorem tab_loop_below_bar (mx my : Int) (hbar : 18 ≤ my) (fuel i : Nat) (tx : Int)
    (tabs : List Tab) (cur : Int) :
    (tab_loop mx my fuel i tx tabs cur).1 = tabs ∧
    (tab_loop mx my fuel i tx tabs cur).2.1 = cur := by
  induction fuel generalizing i tx with
  | zero => simp [tab_loop]
  | succ n ih =>
    rw [tab_loop]
    have h1 : ∀ x w : Int, in_rect mx my x 0 w tab_height = false := by
      intro x w
      simp only [in_rect, tab_height, decide_eq_false_iff_not]
      omega
    split
    · simp only [h1, Bool.false_eq_true, if_false]
      exact ih _ _
    · simp

theorem link_loop_above (load : Str → Str) (mx my cur : Int) (items : List DisplayItem)
    (y : Int) (acc : List Tab × Int)
    (h : my < tab_height + url_height + search_height + 4 + y) :
    link_loop load mx my cur items y acc = acc := by
  induction items generalizing y with
  | nil => rfl
  | cons it rest ih =>
    rw [link_loop]
    rw [if_neg (by omega), ih]
    simp only [tab_height, url_height, search_height] at h ⊢
    omega

theorem link_loop_hit (load : Str → Str) (mx my cur : Int) (pre : List DisplayItem)
    (it : DisplayItem) (post : List DisplayItem) (y : Int) (acc : List Tab × Int)
    (hl : it.link ≠ [])
    (hx1 : 10 ≤ mx) (hx2 : mx < 10 + wrap32 ((it.text.length : Int) * 8))
    (hy1 : tab_height + url_height + search_height + 4 + y + 10 * (pre.length : Int) ≤ my)
    (hy2 : my < tab_height + url_height + search_height + 4 + y + 10 * (pre.length : Int) + 8) :
    link_loop load mx my cur (pre ++ it :: post) y acc = follow_link load acc.1 cur it.link := by
  induction pre generalizing y with
  | nil =>
    simp only [List.length_nil, Nat.cast_zero, mul_zero, add_zero] at hy1 hy2
    rw [List.nil_append, link_loop]
    rw [if_pos ⟨hl, by omega, hx2, hy1, by omega⟩]
    exact link_loop_above _ _ _ _ _ _ _ (by omega)
  | cons p pre ih =>
    simp only [List.length_cons, Nat.cast_add, Nat.cast_one] at hy1 hy2
    rw [List.cons_append, link_loop]
    rw [if_neg (by omega)]
    exact ih _ (by omega) (by omega)

theorem wrap32_of_fits (x : Int) (h : fits_int32 x) : wrap32 x = x := by
  unfold fits_int32 at h
  unfold wrap32
  omega

theorem wrap32_sub_wrap32 (a b : Int) : wrap32 (a - wrap32 b) = wrap32 (a - b) := by
  unfold wrap32
  omega

theorem name_char_iff (c : Char) : name_char c = true ↔ c ≠ '>' ∧ isspace c = false := by
  simp [name_char]

theorem tag_name_cons (c : Char) (tl : Str) :
    tag_name (c :: tl) = if name_char c = true then tolower c :: tag_name tl else [] := by
  unfold tag_name
  rw [List.takeWhile_cons]
  split <;> simp_all

theorem tagname_loop_eq (html : Str) (fuel j : Nat) (acc : Str)
    (h : html.length ≤ j + fuel) :
    tagname_loop html fuel j acc = acc ++ tag_name (html.drop j) := by
  induction fuel generalizing j acc with
  | zero =>
    have hd : html.drop j = [] := List.drop_eq_nil_of_le (by omega)
    simp [tagname_loop, tag_name, hd]
  | succ n ih =>
    rw [tagname_loop]
    by_cases hj : j < html.length
    · have hd : html.drop j = html[j] :: html.drop (j + 1) := List.drop_eq_getElem_cons hj
      rw [List.getElem?_eq_getElem hj, hd, tag_name_cons]
      simp only
      by_cases hp : html[j] ≠ '>' ∧ isspace html[j] = false
      · rw [if_pos hp, if_pos ((name_char_iff _).mpr hp), ih _ _ (by omega)]
        simp
      · rw [if_neg hp, if_neg (fun hn => hp ((name_char_iff _).mp hn))]
        simp
    · have hd : html.drop j = [] := List.drop_eq_nil_of_le (by omega)
      rw [List.getElem?_eq_none (by omega)]
      simp [tag_name, hd]

theorem find_aux_shift (pat s : Str) (k n : Nat) :
    find_aux pat s (k + n) = (find_aux pat s k).map (· + n) := by
  induction s generalizing k with
  | nil =>
    simp only [find_aux]
    split <;> simp
  | cons c tl ih =>
    simp only [find_aux]
    split
    · simp
    · have := ih (k + 1)
      rw [show k + 1 + n = k + n + 1 by omega] at this
      exact this

theorem find_shift (pre suf pat : Str) (k : Nat) :
    find (pre ++ suf) pat (pre.length + k) = (find suf pat k).map (· + pre.length) := by
  unfold find
  rw [List.drop_append, List.length_append]
  by_cases hk : k ≤ suf.length
  · rw [if_pos (by omega), if_pos hk, Nat.add_comm, find_aux_shift]
  · rw [if_neg (by omega), if_neg hk]
    rfl

theorem substr_shift (pre suf : Str) (p len : Nat) :
    substr (pre ++ suf) (pre.length + p) len = substr suf p len := by
  unfold substr
  rw [List.drop_append]

theorem scan_href_shift (pre suf : Str) (i : Nat) (href : Str) :
    scan_href (pre ++ suf) (pre.length + i) href = scan_href suf i href := by
  unfold scan_href find_char
  rw [find_shift]
  cases h1 : find suf "href=".toList i with
  | none => simp
  | some p =>
    simp only [Option.map_some']
    rw [Nat.add_comm p pre.length, find_shift]
    cases h2 : find suf [dquote] p with
    | none => simp
    | some a =>
      simp only [Option.map_some']
      rw [show a + pre.length + 1 = pre.length + (a + 1) by omega, find_shift]
      cases h3 : find suf [dquote] (a + 1) with
      | none => simp
      | some b =>
        simp only [Option.map_some']
        rw [show a + pre.length + 1 = pre.length + (a + 1) by omega,
          show b + pre.length - (a + pre.length) - 1 = b - a - 1 by omega, substr_shift]

theorem parse_step_shift (pre suf : Str) (st : ParseState) (k : Nat) :
    parse_step (pre ++ suf) st (pre.length + k) = parse_step suf st k := by
  have hget : ∀ j : Nat, (pre ++ suf)[pre.length + j]? = suf[j]? := by
    intro j
    rw [List.getElem?_append_right (by omega)]
    congr 1
    omega
  have htag : ∀ j : Nat, tagname_loop (pre ++ suf) (pre ++ suf).length (pre.length + j) []
      = tagname_loop suf suf.length j [] := by
    intro j
    rw [tagname_loop_eq _ _ _ _ (by omega), tagname_loop_eq _ _ _ _ (by omega),
      List.drop_append]
  have hget1 : (pre ++ suf)[pre.length + k + 1]? = suf[k + 1]? := hget (k + 1)
  have htag1 : tagname_loop (pre ++ suf) (pre ++ suf).length (pre.length + k + 1) []
      = tagname_loop suf suf.length (k + 1) [] := htag (k + 1)
  have htag2 : tagname_loop (pre ++ suf) (pre ++ suf).length (pre.length + k + 1 + 1) []
      = tagname_loop suf suf.length (k + 1 + 1) [] := htag (k + 1 + 1)
  unfold parse_step
  rw [hget k]
  cases suf[k]? with
  | none => rfl
  | some c =>
    simp only [hget1, scan_href_shift]
    by_cases hcl : suf[k + 1]? = some '/'
    · simp only [hcl, decide_True, if_true, htag2]
    · simp only [hcl, decide_False, Bool.false_eq_true, if_false, htag1]

theorem parse_fold_suffix (pre suf : Str) (st : ParseState) :
    (List.range' pre.length suf.length).foldl (parse_step (pre ++ suf)) st
      = parse_suffix suf st := by
  induction suf generalizing pre st with
  | nil => rfl
  | cons c tl ih =>
    rw [List.length_cons, List.range'_succ, List.foldl_cons, parse_suffix]
    have h0 := parse_step_shift pre (c :: tl) st 0
    rw [Nat.add_zero] at h0
    rw [h0]
    have h1 := ih (pre ++ [c]) (parse_step (c :: tl) st 0)
    simp only [List.length_append, List.length_singleton, List.append_assoc,
      List.singleton_append] at h1
    exact h1

theorem parse_html_eq_suffix (html : Str) :
    parse_html html = parse_finish (parse_suffix html parse_init) := by
  unfold parse_html
  rw [List.range_eq_range']
  have h := parse_fold_suffix [] html parse_init
  simp only [List.length_nil, List.nil_append] at h
  rw [h]

/-! ## Single steps on a suffix -/

theorem tolower_eq_a (c : Char) (h : tolower c = 'a') : c = 'a' ∨ c = 'A' := by
  unfold tolower at h
  split at h
  · rename_i hr
    have hc : c = Char.ofNat c.toNat := (Char.ofNat_toNat c).symm
    generalize c.toNat = n at hr hc h
    subst hc
    obtain ⟨h1, h2⟩ := hr
    interval_cases n <;> first | (right; decide) | exact absurd h (by decide)
  · exact Or.inl h

theorem parse_step_text (c : Char) (tl : Str) (st : ParseState)
    (h1 : c ≠ '<') (h2 : c ≠ '>') :
    parse_step (c :: tl) st 0 =
      if st.in_tag = false then { st with text := st.text ++ [c] } else st := by
  simp [parse_step, h1, h2]

theorem parse_step_gt (tl : Str) (st : ParseState) :
    parse_step ('>' :: tl) st 0 = { st with in_tag := false } := by
  simp [parse_step]

theorem parse_step_lt (tl : Str) (st : ParseState) :
    parse_step ('<' :: tl) st 0 =
      if tl.head? = some '/' then
        { (if st.text ≠ [] then { st with items := push_item st, text := [] } else st) with
          in_tag := true
          in_link := if tag_name (tl.drop 1) = ['a'] then false else st.in_link }
      else if tag_name tl = ['a'] then
        { (if st.text ≠ [] then { st with items := push_item st, text := [] } else st) with
          in_tag := true
          in_link := true
          href := scan_href ('<' :: tl) 0 st.href }
      else
        { (if st.text ≠ [] then { st with items := push_item st, text := [] } else st) with
          in_tag := true } := by
  have hh : ('<' :: tl)[1]? = tl.head? := by
    cases tl <;> simp
  unfold parse_step
  simp only [List.getElem?_cons_zero, if_true, Nat.zero_add, hh]
  by_cases hcl : tl.head? = some '/'
  · simp only [hcl, decide_True, if_true]
    rw [tagname_loop_eq _ _ _ _ (by simp)]
    simp only [List.nil_append, List.drop_succ_cons]
    split_ifs <;> simp_all
  · simp only [hcl, decide_False, Bool.false_eq_true, if_false]
    rw [tagname_loop_eq _ _ _ _ (by simp)]
    simp only [List.nil_append, List.drop_succ_cons, List.drop_zero]
    split_ifs <;> simp_all

theorem parse_suffix_text (t rest : Str) (st : ParseState) (ht : bracket_free t)
    (h : st.in_tag = false) :
    parse_suffix (t ++ rest) st = parse_suffix rest { st with text := st.text ++ t } := by
  induction t generalizing st with
  | nil => simp
  | cons c tl ih =>
    have hc1 : c ≠ '<' := fun e => ht.1 (by simp [e])
    have hc2 : c ≠ '>' := fun e => ht.2 (by simp [e])
    have htl : bracket_free tl :=
      ⟨fun e => ht.1 (List.mem_cons_of_mem _ e), fun e => ht.2 (List.mem_cons_of_mem _ e)⟩
    have hnext := ih { st with text := st.text ++ [c] } htl h
    rw [List.cons_append, parse_suffix, parse_step_text _ _ _ hc1 hc2, if_pos h, hnext]
    simp

theorem parse_suffix_tag (body rest : Str) (st : ParseState) (hb : bracket_free body)
    (h : st.in_tag = true) :
    parse_suffix (body ++ '>' :: rest) st = parse_suffix rest { st with in_tag := false } := by
  induction body with
  | nil => rw [List.nil_append, parse_suffix, parse_step_gt]
  | cons c tl ih =>
    have hc1 : c ≠ '<' := fun e => hb.1 (by simp [e])
    have hc2 : c ≠ '>' := fun e => hb.2 (by simp [e])
    have htl : bracket_free tl :=
      ⟨fun e => hb.1 (List.mem_cons_of_mem _ e), fun e => hb.2 (List.mem_cons_of_mem _ e)⟩
    rw [List.cons_append, parse_suffix, parse_step_text _ _ _ hc1 hc2, if_neg (by simp [h]),
      ih htl]

/-! ## Tags other than an opening anchor -/

theorem tag_name_append_gt (body rest : Str) :
    tag_name (body ++ '>' :: rest) = tag_name body := by
  induction body with
  | nil =>
    rw [List.nil_append, tag_name_cons, if_neg (by simp [name_char])]
    rfl
  | cons c tl ih => rw [List.cons_append, tag_name_cons, tag_name_cons, ih]

theorem names_anchor_of_tag_name (body : Str) (hb : bracket_free body)
    (h : tag_name body = ['a']) : names_anchor body = true := by
  cases body with
  | nil => simp [tag_name] at h
  | cons c r =>
    rw [tag_name_cons] at h
    split at h
    · simp only [List.cons.injEq] at h
      obtain ⟨hc, hr⟩ := h
      have hca := tolower_eq_a c hc
      have hfirst : (c == 'a' || c == 'A') = true := by
        rcases hca with e | e <;> simp [e]
      cases r with
      | nil => simp [names_anchor, hfirst]
      | cons w r2 =>
        rw [tag_name_cons] at hr
        split at hr
        · simp at hr
        · rename_i hw
          have hwgt : w ≠ '>' := fun e => hb.2 (by simp [e])
          have hsp : isspace w = true := by
            by_contra hns
            exact hw ((name_char_iff w).mpr ⟨hwgt, by simpa using hns⟩)
          simp [names_anchor, hfirst, hsp]
    · simp at h

theorem parse_step_plain_tag (body rest : Str) (st : ParseState) (hb : bracket_free body)
    (hn : names_anchor body = false) (hl : st.in_link = false) :
    parse_step ('<' :: (body ++ '>' :: rest)) st 0 =
      { items := if st.text ≠ [] then push_item st else st.items
        in_tag := true
        in_link := false
        text := []
        href := st.href } := by
  have hname : tag_name (body ++ '>' :: rest) ≠ ['a'] := by
    rw [tag_name_append_gt]
    intro h
    rw [names_anchor_of_tag_name body hb h] at hn
    exact Bool.noConfusion hn
  rw [parse_step_lt]
  split_ifs <;> simp_all

theorem parse_suffix_markup (segs : List (Str × Str)) (t0 : Str) (st : ParseState)
    (h0 : bracket_free t0)
    (hs : ∀ p ∈ segs, bracket_free p.1 ∧ bracket_free p.2 ∧ names_anchor p.1 = false)
    (htag : st.in_tag = false) (hlink : st.in_link = false) :
    parse_finish (parse_suffix (markup t0 segs) st)
      = st.items ++ text_items ((st.text ++ t0) :: segs.map Prod.snd) := by
  induction segs generalizing t0 st with
  | nil =>
    have h := parse_suffix_text t0 [] st h0 htag
    rw [List.append_nil] at h
    rw [markup, h]
    simp only [parse_suffix, parse_finish, push_item, hlink, List.map_nil, text_items]
    by_cases hx : st.text ++ t0 = [] <;> simp [hx, List.filter]
  | cons p segs ih =>
    obtain ⟨body, t⟩ := p
    have hp := hs (body, t) (List.mem_cons_self _ _)
    have hrest : ∀ q ∈ segs, bracket_free q.1 ∧ bracket_free q.2 ∧ names_anchor q.1 = false :=
      fun q hq => hs q (List.mem_cons_of_mem _ hq)
    have hstep := parse_step_plain_tag body (markup t segs)
      { st with text := st.text ++ t0 } hp.1 hp.2.2 hlink
    rw [markup, parse_suffix_text _ _ _ h0 htag, parse_suffix, hstep,
      parse_suffix_tag body _ _ hp.1 rfl, ih t _ hp.2.1 hrest rfl rfl]
    simp only [push_item, hlink, List.nil_append, List.map_cons, text_items]
    by_cases hx : st.text ++ t0 = [] <;> simp [hx, List.filter]

/-! ## One anchor -/

theorem find_aux_char_skip (q : Char) (u rest : Str) (k : Nat) (hq : q ∉ u) :
    find_aux [q] (u ++ q :: rest) k = some (k + u.length) := by
  induction u generalizing k with
  | nil => simp [find_aux, List.isPrefixOf]
  | cons a tl ih =>
    have ha : q ≠ a := fun e => hq (by simp [e])
    have htl : q ∉ tl := fun e => hq (List.mem_cons_of_mem _ e)
    rw [List.cons_append, find_aux, if_neg (by simp [List.isPrefixOf, ha]), ih _ htl]
    simp only [List.length_cons]
    congr 1
    omega

theorem tag_name_letter (c : Char) (hc : c = 'a' ∨ c = 'A') (w : Char) (rest : Str)
    (hw : name_char w = false) : tag_name (c :: w :: rest) = ['a'] := by
  have hnc : name_char c = true := by
    rcases hc with e | e <;> subst e <;> decide
  have hlow : tolower c = 'a' := by
    rcases hc with e | e <;> subst e <;> decide
  rw [tag_name_cons, if_pos hnc, tag_name_cons, if_neg (by simp [hw]), hlow]

theorem scan_href_anchor (o c : Char) (u t href : Str) (ho : o = 'a' ∨ o = 'A')
    (hq : dquote ∉ u) : scan_href (anchor_markup o c u t) 0 href = u := by
  have h1 : find (anchor_markup o c u t) "href=".toList 0 = some 3 := by
    rcases ho with e | e <;> subst e <;> simp [find, anchor_markup, find_aux, List.isPrefixOf]
  have h2 : find_char (anchor_markup o c u t) dquote 3 = some 8 := by
    simp [find_char, find, anchor_markup, find_aux, List.isPrefixOf, dquote]
  have h3 : find_char (anchor_markup o c u t) dquote 9 = some (9 + u.length) := by
    have hd : (anchor_markup o c u t).drop 9 = u ++ dquote :: '>' :: (t ++ ['<', '/', c, '>']) := by
      simp [anchor_markup]
    have hlen : 9 ≤ (anchor_markup o c u t).length := by
      simp [anchor_markup]
    rw [find_char, find, if_pos hlen, hd, find_aux_char_skip _ _ _ _ hq]
  have h4 : substr (anchor_markup o c u t) 9 u.length = u := by
    simp [substr, anchor_markup]
  unfold scan_href
  rw [h1]
  simp only [h2, h3]
  rw [show 9 + u.length - 8 - 1 = u.length by omega, h4]

theorem parse_suffix_close_anchor (c : Char) (hc : c = 'a' ∨ c = 'A') (st : ParseState) :
    parse_suffix ['<', '/', c, '>'] st =
      { items := if st.text ≠ [] then push_item st else st.items
        in_tag := false
        in_link := false
        text := []
        href := st.href } := by
  have hname : tag_name [c, '>'] = ['a'] := tag_name_letter c hc '>' [] (by decide)
  have hc1 : c ≠ '<' := by rcases hc with e | e <;> subst e <;> decide
  have hc2 : c ≠ '>' := by rcases hc with e | e <;> subst e <;> decide
  simp only [parse_suffix]
  rw [parse_step_lt]
  simp only [List.head?_cons, if_true, List.drop_succ_cons, List.drop_zero, hname]
  rw [parse_step_text '/' _ _ (by decide) (by decide), if_neg (by simp),
    parse_step_text c _ _ hc1 hc2, if_neg (by simp), parse_step_gt]
  split_ifs <;> simp_all

theorem parse_html_anchor (o c : Char) (u t : Str) (ho : o = 'a' ∨ o = 'A')
    (hc : c = 'a' ∨ c = 'A') (hq : dquote ∉ u) (hu : bracket_free u) (ht0 : t ≠ [])
    (ht : bracket_free t) : parse_html (anchor_markup o c u t) = [⟨t, u⟩] := by
  have ho1 : o ≠ '<' := by rcases ho with e | e <;> subst e <;> decide
  have ho2 : o ≠ '>' := by rcases ho with e | e <;> subst e <;> decide
  have ho3 : o ≠ '/' := by rcases ho with e | e <;> subst e <;> decide
  have hbody : bracket_free (o :: (" href=".toList ++ dquote :: (u ++ [dquote]))) := by
    constructor
    · intro hm
      simp only [List.mem_cons, List.mem_append] at hm
      rcases hm with e | hm
      · exact ho1 e.symm
      · revert hm
        simp [hu.1, dquote]
    · intro hm
      simp only [List.mem_cons, List.mem_append] at hm
      rcases hm with e | hm
      · exact ho2 e.symm
      · revert hm
        simp [hu.2, dquote]
  have hshape : anchor_markup o c u t =
      '<' :: ((o :: (" href=".toList ++ dquote :: (u ++ [dquote]))) ++
        '>' :: (t ++ ['<', '/', c, '>'])) := by
    simp [anchor_markup]
  have hname : tag_name ((o :: (" href=".toList ++ dquote :: (u ++ [dquote]))) ++
        '>' :: (t ++ ['<', '/', c, '>'])) = ['a'] :=
    tag_name_letter o ho ' ' _ (by decide)
  have hhref := scan_href_anchor o c u t parse_init.href ho hq
  rw [hshape] at hhref
  have hstep : parse_step ('<' :: ((o :: (" href=".toList ++ dquote :: (u ++ [dquote]))) ++
        '>' :: (t ++ ['<', '/', c, '>']))) parse_init 0 =
      { items := [], in_tag := true, in_link := true, text := [], href := u } := by
    rw [parse_step_lt, if_neg (by simp [ho3]), if_pos hname, hhref]
    simp [parse_init]
  rw [parse_html_eq_suffix, hshape, parse_suffix, hstep,
    parse_suffix_tag _ _ _ hbody rfl, parse_suffix_text _ _ _ ht rfl,
    parse_suffix_close_anchor c hc]
  simp [parse_finish, push_item, ht0]

/-! ## Anchor tags in front of any rest -/

theorem parse_step_lt_fields (tl : Str) (st : ParseState) :
    (parse_step ('<' :: tl) st 0).items = (if st.text ≠ [] then push_item st else st.items) ∧
    (parse_step ('<' :: tl) st 0).text = [] ∧
    (parse_step ('<' :: tl) st 0).in_tag = true := by
  rw [parse_step_lt]
  split_ifs <;> simp_all

theorem parse_step_open_anchor (o w : Char) (rest : Str) (st : ParseState)
    (ho : o = 'a' ∨ o = 'A') (hw : name_char w = false) :
    parse_step ('<' :: o :: w :: rest) st 0 =
      { items := if st.text ≠ [] then push_item st else st.items
        in_tag := true
        in_link := true
        text := []
        href := scan_href ('<' :: o :: w :: rest) 0 st.href } := by
  have ho3 : o ≠ '/' := by rcases ho with e | e <;> subst e <;> decide
  rw [parse_step_lt, if_neg (by simp [ho3]), if_pos (tag_name_letter o ho w rest hw)]
  split_ifs <;> simp_all

theorem parse_suffix_close_anchor_rest (c : Char) (hc : c = 'a' ∨ c = 'A') (rest : Str)
    (st : ParseState) :
    parse_suffix ('<' :: '/' :: c :: '>' :: rest) st =
      parse_suffix rest
        { items := if st.text ≠ [] then push_item st else st.items
          in_tag := false
          in_link := false
          text := []
          href := st.href } := by
  have hname : tag_name (c :: '>' :: rest) = ['a'] := tag_name_letter c hc '>' rest (by decide)
  have hc1 : c ≠ '<' := by rcases hc with e | e <;> subst e <;> decide
  have hc2 : c ≠ '>' := by rcases hc with e | e <;> subst e <;> decide
  rw [parse_suffix, parse_suffix, parse_suffix, parse_suffix, parse_step_lt]
  simp only [List.head?_cons, if_true, List.drop_succ_cons, List.drop_zero, hname]
  rw [parse_step_text '/' _ _ (by decide) (by decide), if_neg (by simp),
    parse_step_text c _ _ hc1 hc2, if_neg (by simp), parse_step_gt]
  congr 1
  split_ifs <;> simp_all

/-! ## Fragments already emitted stay in front -/

theorem parse_step_keeps_items (c : Char) (tl : Str) (st : ParseState) :
    st.items <+: (parse_step (c :: tl) st 0).items := by
  by_cases h1 : c = '<'
  · subst h1
    rw [(parse_step_lt_fields tl st).1]
    split
    · exact List.prefix_append _ _
    · exact List.prefix_refl _
  · by_cases h2 : c = '>'
    · subst h2
      rw [parse_step_gt]
    · rw [parse_step_text c tl st h1 h2]
      split <;> exact List.prefix_refl _

theorem parse_suffix_keeps_items (rest : Str) (st : ParseState) :
    st.items <+: (parse_suffix rest st).items := by
  induction rest generalizing st with
  | nil => exact List.prefix_refl _
  | cons c tl ih =>
    rw [parse_suffix]
    exact List.IsPrefix.trans (parse_step_keeps_items c tl st) (ih _)

theorem parse_finish_keeps_items (st : ParseState) : st.items <+: parse_finish st := by
  unfold parse_finish
  split
  · exact List.prefix_append _ _
  · exact List.prefix_refl _

theorem parse_rest_head (rest : Str) (st : ParseState) (x : DisplayItem)
    (xs : List DisplayItem) (h : st.items = x :: xs) :
    (parse_finish (parse_suffix rest st)).head? = some x := by
  have hp : st.items <+: parse_finish (parse_suffix rest st) :=
    List.IsPrefix.trans (parse_suffix_keeps_items rest st) (parse_finish_keeps_items _)
  rw [h] at hp
  obtain ⟨r, hr⟩ := hp
  rw [← hr]
  rfl

/-! ## No href value without two double quotes -/

theorem find_aux_char_split (q : Char) (l : Str) (k r : Nat)
    (h : find_aux [q] l k = some r) :
    ∃ pre post, l = pre ++ q :: post ∧ r = k + pre.length := by
  induction l generalizing k with
  | nil => simp [find_aux] at h
  | cons a tl ih =>
    rw [find_aux] at h
    split at h
    · rename_i hp
      have ha : q = a := by simpa [List.isPrefixOf] using hp
      refine ⟨[], tl, by simp [ha], ?_⟩
      simp only [Option.some.injEq] at h
      simp [h]
    · obtain ⟨pre, post, h1, h2⟩ := ih _ h
      refine ⟨a :: pre, post, by simp [h1], ?_⟩
      simp only [List.length_cons]
      omega

theorem find_some_le (s pat : Str) (pos r : Nat) (h : find s pat pos = some r) :
    pos ≤ s.length ∧ find_aux pat (s.drop pos) pos = some r := by
  unfold find at h
  split at h
  · rename_i hle
    exact ⟨hle, h⟩
  · simp at h

theorem count_of_two_finds (html : Str) (q : Char) (p s e : Nat)
    (h1 : find html [q] p = some s) (h2 : find html [q] (s + 1) = some e) :
    2 ≤ html.count q := by
  obtain ⟨_, h1⟩ := find_some_le _ _ _ _ h1
  obtain ⟨_, h2⟩ := find_some_le _ _ _ _ h2
  obtain ⟨pre, post, hd, hs⟩ := find_aux_char_split _ _ _ _ h1
  obtain ⟨pre2, post2, hd2, _⟩ := find_aux_char_split _ _ _ _ h2
  have hpost : html.drop (s + 1) = post := by
    have : html.drop (s + 1) = (html.drop p).drop (pre.length + 1) := by
      rw [List.drop_drop, hs, Nat.add_assoc]
    rw [this, hd]
    simp
  rw [hpost] at hd2
  have hc : 2 ≤ (html.drop p).count q := by
    rw [hd, hd2]
    simp only [List.count_append, List.count_cons_self]
    omega
  exact le_trans hc ((List.drop_sublist p html).count_le q)

theorem scan_href_unchanged (html : Str) (i : Nat) (href : Str)
    (h : html.count dquote ≤ 1) : scan_href html i href = href := by
  unfold scan_href
  cases find html "href=".toList i with
  | none => rfl
  | some p =>
    simp only
    cases h1 : find_char html dquote p with
    | none => simp
    | some s =>
      cases h2 : find_char html dquote (s + 1) with
      | none => simp
      | some e =>
        have := count_of_two_finds html dquote p s e h1 h2
        omega

theorem single_quoted_anchor_head (u t s : Str) (link : Str) (hu : bracket_free u)
    (ht0 : t ≠ []) (ht : bracket_free t)
    (hh : scan_href (single_quoted_anchor u t s) 0 [] = link) :
    (parse_html (single_quoted_anchor u t s)).head? = some ⟨t, link⟩ := by
  have hshape : single_quoted_anchor u t s =
      '<' :: 'a' :: ' ' :: (("href=".toList ++ squote :: (u ++ [squote])) ++
        '>' :: (t ++ '<' :: '/' :: 'a' :: '>' :: s)) := by
    simp [single_quoted_anchor]
  have hbody : bracket_free ('a' :: ' ' :: ("href=".toList ++ squote :: (u ++ [squote]))) := by
    constructor
    · simp [hu.1, squote]
    · simp [hu.2, squote]
  have hstep := parse_step_open_anchor 'a' ' ' (("href=".toList ++ squote :: (u ++ [squote])) ++
        '>' :: (t ++ '<' :: '/' :: 'a' :: '>' :: s)) parse_init (Or.inl rfl) (by decide)
  have hh2 : scan_href (single_quoted_anchor u t s) 0 parse_init.href = link := hh
  rw [← hshape, hh2] at hstep
  have hbody2 : '<' :: 'a' :: ' ' :: (("href=".toList ++ squote :: (u ++ [squote])) ++
        '>' :: (t ++ '<' :: '/' :: 'a' :: '>' :: s)) =
      '<' :: (('a' :: ' ' :: ("href=".toList ++ squote :: (u ++ [squote]))) ++
        '>' :: (t ++ '<' :: '/' :: 'a' :: '>' :: s)) := by
    simp
  rw [parse_html_eq_suffix]
  conv =>
    lhs
    rw [hshape, hbody2, parse_suffix, ← hbody2, ← hshape, hstep]
  rw [parse_suffix_tag _ _ _ hbody rfl, parse_suffix_text _ _ _ ht rfl,
    parse_suffix_close_anchor_rest 'a' (Or.inl rfl)]
  apply parse_rest_head _ _ _ []
  simp [parse_init, push_item, ht0]

/-! ## Reading past a prefix -/

theorem parse_suffix_append (p rest : Str) (st : ParseState) :
    ∃ st2 : ParseState, parse_suffix (p ++ rest) st = parse_suffix rest st2 := by
  induction p generalizing st with
  | nil => exact ⟨st, rfl⟩
  | cons c tl ih =>
    rw [List.cons_append, parse_suffix]
    exact ih _

/-! ## An anchor with a double-quoted href in front of any rest -/

theorem scan_href_anchor_rest (o : Char) (u rest href : Str) (ho : o = 'a' ∨ o = 'A')
    (hq : dquote ∉ u) :
    scan_href ('<' :: o :: (" href=".toList ++ dquote :: (u ++ dquote :: rest))) 0 href = u := by
  have h1 : find ('<' :: o :: (" href=".toList ++ dquote :: (u ++ dquote :: rest)))
      "href=".toList 0 = some 3 := by
    rcases ho with e | e <;> subst e <;> simp [find, find_aux, List.isPrefixOf]
  have h2 : find_char ('<' :: o :: (" href=".toList ++ dquote :: (u ++ dquote :: rest)))
      dquote 3 = some 8 := by
    simp [find_char, find, find_aux, List.isPrefixOf, dquote]
  have h3 : find_char ('<' :: o :: (" href=".toList ++ dquote :: (u ++ dquote :: rest)))
      dquote 9 = some (9 + u.length) := by
    have hd : ('<' :: o :: (" href=".toList ++ dquote :: (u ++ dquote :: rest))).drop 9
        = u ++ dquote :: rest := by
      simp
    have hlen : 9 ≤ ('<' :: o :: (" href=".toList ++ dquote :: (u ++ dquote :: rest))).length := by
      simp
    rw [find_char, find, if_pos hlen, hd, find_aux_char_skip _ _ _ _ hq]
  have h4 : substr ('<' :: o :: (" href=".toList ++ dquote :: (u ++ dquote :: rest)))
      9 u.length = u := by
    simp [substr]
  unfold scan_href
  rw [h1]
  simp only [h2, h3]
  rw [show 9 + u.length - 8 - 1 = u.length by omega, h4]

theorem parse_suffix_href_anchor (o : Char) (u rest : Str) (st : ParseState)
    (ho : o = 'a' ∨ o = 'A') (hq : dquote ∉ u) (hu : bracket_free u) :
    parse_suffix ('<' :: o :: (" href=".toList ++ dquote :: (u ++ dquote :: '>' :: rest))) st =
      parse_suffix rest
        { items := if st.text ≠ [] then push_item st else st.items
          in_tag := false
          in_link := true
          text := []
          href := u } := by
  have ho1 : o ≠ '<' := by rcases ho with e | e <;> subst e <;> decide
  have ho2 : o ≠ '>' := by rcases ho with e | e <;> subst e <;> decide
  have hbody : bracket_free (o :: (" href=".toList ++ dquote :: (u ++ [dquote]))) := by
    constructor
    · intro hm
      simp only [List.mem_cons, List.mem_append] at hm
      rcases hm with e | hm
      · exact ho1 e.symm
      · revert hm
        simp [hu.1, dquote]
    · intro hm
      simp only [List.mem_cons, List.mem_append] at hm
      rcases hm with e | hm
      · exact ho2 e.symm
      · revert hm
        simp [hu.2, dquote]
  have hstep := parse_step_open_anchor o ' '
    ("href=".toList ++ dquote :: (u ++ dquote :: '>' :: rest)) st ho (by decide)
  have hhref := scan_href_anchor_rest o u ('>' :: rest) st.href ho hq
  have e1 : '<' :: o :: ' ' :: ("href=".toList ++ dquote :: (u ++ dquote :: '>' :: rest))
      = '<' :: o :: (" href=".toList ++ dquote :: (u ++ dquote :: '>' :: rest)) := by
    simp
  rw [e1, hhref] at hstep
  have e2 : o :: (" href=".toList ++ dquote :: (u ++ dquote :: '>' :: rest))
      = (o :: (" href=".toList ++ dquote :: (u ++ [dquote]))) ++ '>' :: rest := by
    simp
  rw [parse_suffix, hstep, e2, parse_suffix_tag _ _ _ hbody rfl]

/-! ## An anchor without `href=` -/

theorem find_aux_none (pat l : Str) (k : Nat) (h : ¬ pat <:+: l) :
    find_aux pat l k = none := by
  induction l generalizing k with
  | nil =>
    rw [find_aux, if_neg]
    intro e
    exact h (by rw [e])
  | cons c tl ih =>
    rw [find_aux, if_neg, ih]
    · exact fun hi => h (List.infix_cons hi)
    · intro hp
      exact h (List.isPrefixOf_iff_prefix.mp hp).isInfix

theorem not_infix_cons (pat l : Str) (c : Char) (hc : c ∉ pat) (hne : pat ≠ [])
    (h : ¬ pat <:+: l) : ¬ pat <:+: c :: l := by
  rw [List.infix_cons_iff]
  rintro (hp | hi)
  · rcases List.prefix_cons_iff.mp hp with e | ⟨r, e, _⟩
    · exact hne e
    · exact hc (by rw [e]; exact List.mem_cons_self _ _)
  · exact h hi

theorem not_infix_concat (pat l : Str) (c : Char) (hc : c ∉ pat) (hne : pat ≠ [])
    (h : ¬ pat <:+: l) : ¬ pat <:+: l ++ [c] := by
  rw [← List.reverse_infix, List.reverse_append, List.reverse_singleton, List.singleton_append]
  apply not_infix_cons
  · simpa using hc
  · simpa using hne
  · rwa [List.reverse_infix]

theorem scan_href_bare_anchor (t href : Str) (h : ¬ "href=".toList <:+: t) :
    scan_href ('<' :: 'a' :: '>' :: (t ++ ['<', '/', 'a', '>'])) 0 href = href := by
  have hne : "href=".toList ≠ [] := by decide
  have h1 := not_infix_concat _ _ '<' (by decide) hne h
  have h2 := not_infix_concat _ _ '/' (by decide) hne h1
  have h3 := not_infix_concat _ _ 'a' (by decide) hne h2
  have h4 := not_infix_concat _ _ '>' (by decide) hne h3
  have h5 := not_infix_cons _ _ '>' (by decide) hne h4
  have h6 := not_infix_cons _ _ 'a' (by decide) hne h5
  have h7 := not_infix_cons _ _ '<' (by decide) hne h6
  have e : '<' :: 'a' :: '>' :: ((((t ++ ['<']) ++ ['/']) ++ ['a']) ++ ['>'])
      = '<' :: 'a' :: '>' :: (t ++ ['<', '/', 'a', '>']) := by
    simp
  rw [e] at h7
  unfold scan_href find
  rw [if_pos (Nat.zero_le _), List.drop_zero, find_aux_none _ _ _ h7]

/-! ## The text of the fragments is the input without its tags -/

theorem concat_texts_append (a b : List DisplayItem) :
    concat_texts (a ++ b) = concat_texts a ++ concat_texts b := by
  induction a with
  | nil => rfl
  | cons x r ih => simp [concat_texts, ih]

theorem last_bracket_concat (pre : Str) (c : Char) :
    last_bracket (pre ++ [c]) = if is_bracket c = true then some c else last_bracket pre := by
  simp [last_bracket, List.find?_cons]
  split <;> simp_all

theorem concat_texts_finish (st : ParseState) :
    concat_texts (parse_finish st) = concat_texts st.items ++ st.text := by
  unfold parse_finish
  split
  · simp [push_item, concat_texts_append, concat_texts]
  · rename_i h
    simp only [ne_eq, not_not] at h
    simp [h]

theorem concat_texts_suffix (suf pre : Str) (st : ParseState)
    (h : st.in_tag = true ↔ last_bracket pre = some '<') :
    concat_texts (parse_finish (parse_suffix suf st))
      = concat_texts st.items ++ st.text ++ tag_stripped_from pre suf := by
  induction suf generalizing pre st with
  | nil => simp [parse_suffix, concat_texts_finish, tag_stripped_from]
  | cons c tl ih =>
    rw [parse_suffix, tag_stripped_from]
    by_cases h1 : c = '<'
    · subst h1
      obtain ⟨hi, ht, hg⟩ := parse_step_lt_fields tl st
      rw [ih (pre ++ ['<']) _ (by rw [hg, last_bracket_concat]; simp [is_bracket]), hi, ht]
      by_cases hx : st.text = []
      · simp [hx, is_bracket]
      · simp [hx, is_bracket, push_item, concat_texts_append, concat_texts]
    · by_cases h2 : c = '>'
      · subst h2
        rw [parse_step_gt, ih (pre ++ ['>']) _ (by rw [last_bracket_concat]; simp [is_bracket])]
        simp [is_bracket]
      · have hb : is_bracket c = false := by simp [is_bracket, h1, h2]
        rw [parse_step_text c tl st h1 h2]
        by_cases hg : st.in_tag = true
        · have hl := h.mp hg
          rw [if_neg (by simp [hg]), ih (pre ++ [c]) st (by rw [last_bracket_concat, hb]; simpa using h)]
          simp [hl]
        · have hl : ¬ last_bracket pre = some '<' := fun e => hg (h.mpr e)
          have hg2 : st.in_tag = false := by simpa using hg
          rw [if_pos hg2, ih (pre ++ [c]) _ (by rw [last_bracket_concat, hb]; simpa using h)]
          simp [hl, hb]

/-! ## Every fragment has a non-empty text without angle brackets -/

theorem bracket_free_concat (t : Str) (c : Char) (ht : bracket_free t) (h1 : c ≠ '<')
    (h2 : c ≠ '>') : bracket_free (t ++ [c]) := by
  constructor
  · intro hm
    rcases List.mem_append.mp hm with e | e
    · exact ht.1 e
    · have e2 : c = '<' := (List.mem_singleton.mp e).symm
      exact h1 e2
  · intro hm
    rcases List.mem_append.mp hm with e | e
    · exact ht.2 e
    · have e2 : c = '>' := (List.mem_singleton.mp e).symm
      exact h2 e2

theorem push_item_texts (st : ParseState)
    (hi : ∀ it ∈ st.items, it.text ≠ [] ∧ bracket_free it.text)
    (ht : bracket_free st.text) (hx : st.text ≠ []) :
    ∀ it ∈ push_item st, it.text ≠ [] ∧ bracket_free it.text := by
  intro it hm
  rcases List.mem_append.mp hm with e | e
  · exact hi it e
  · have : it = ⟨st.text, if st.in_link then st.href else []⟩ := by simpa using e
    rw [this]
    exact ⟨hx, ht⟩

theorem parse_suffix_texts (suf : Str) (st : ParseState)
    (hi : ∀ it ∈ st.items, it.text ≠ [] ∧ bracket_free it.text)
    (ht : bracket_free st.text) :
    ∀ it ∈ parse_finish (parse_suffix suf st), it.text ≠ [] ∧ bracket_free it.text := by
  induction suf generalizing st with
  | nil =>
    rw [parse_suffix, parse_finish]
    split
    · rename_i hx
      exact push_item_texts st hi ht hx
    · exact hi
  | cons c tl ih =>
    rw [parse_suffix]
    by_cases h1 : c = '<'
    · subst h1
      obtain ⟨hit, htx, _⟩ := parse_step_lt_fields tl st
      apply ih
      · rw [hit]
        split
        · rename_i hx
          exact push_item_texts st hi ht hx
        · exact hi
      · rw [htx]
        exact ⟨by simp, by simp⟩
    · by_cases h2 : c = '>'
      · subst h2
        rw [parse_step_gt]
        exact ih _ hi ht
      · rw [parse_step_text c tl st h1 h2]
        split
        · exact ih _ hi (bracket_free_concat _ _ ht h1 h2)
        · exact ih _ hi ht

/-! ## The checked accesses are in range -/

theorem find_aux_bound (pat l : Str) (k r : Nat) (h : find_aux pat l k = some r) :
    k ≤ r ∧ r + pat.length ≤ k + l.length := by
  induction l generalizing k with
  | nil =>
    rw [find_aux] at h
    split at h
    · rename_i hp
      simp only [Option.some.injEq] at h
      simp [hp, h]
    · simp at h
  | cons c tl ih =>
    rw [find_aux] at h
    split at h
    · rename_i hp
      simp only [Option.some.injEq] at h
      have hl := (List.isPrefixOf_iff_prefix.mp hp).length_le
      simp only [List.length_cons] at hl ⊢
      omega
    · have := ih _ h
      simp only [List.length_cons]
      omega

theorem find_bound (s pat : Str) (pos r : Nat) (h : find s pat pos = some r) :
    pos ≤ r ∧ r + pat.length ≤ s.length := by
  obtain ⟨hle, h2⟩ := find_some_le _ _ _ _ h
  have hb := find_aux_bound _ _ _ _ h2
  rw [List.length_drop] at hb
  omega

theorem href_positions (html : Str) (s e : Nat)
    (h2 : find_char html dquote (s + 1) = some e) :
    s < e ∧ e < html.length := by
  have hb := find_bound _ _ _ _ h2
  simp only [List.length_singleton] at hb
  omega

theorem tagname_loop_chk_eq (html : Str) (fuel j : Nat) (acc : Str) :
    tagname_loop_chk html fuel j acc = some (tagname_loop html fuel j acc) := by
  induction fuel generalizing j acc with
  | zero => rfl
  | succ n ih =>
    rw [tagname_loop_chk, tagname_loop, read_at]
    by_cases hj : j < html.length
    · rw [if_pos hj, List.getElem?_eq_getElem hj]
      simp only
      split
      · exact ih _ _
      · rfl
    · rw [if_neg hj, List.getElem?_eq_none (by omega)]

theorem scan_href_chk_eq (html : Str) (i : Nat) (href : Str) :
    scan_href_chk html i href = some (scan_href html i href) := by
  unfold scan_href_chk scan_href
  cases find html "href=".toList i with
  | none => rfl
  | some p =>
    simp only
    cases h1 : find_char html dquote p with
    | none => simp
    | some s =>
      cases h2 : find_char html dquote (s + 1) with
      | none => simp
      | some e =>
        simp only
        rw [if_pos (href_positions html s e h2)]

theorem closing_chk_eq (html : Str) (j : Nat) :
    closing_chk html j = some (decide (html[j]? = some '/')) := by
  unfold closing_chk read_at
  by_cases hj : j < html.length
  · rw [if_pos hj, List.getElem?_eq_getElem hj]
    simp
  · rw [if_neg hj, List.getElem?_eq_none (by omega)]
    simp

theorem parse_step_chk_eq (html : Str) (st : ParseState) (i : Nat) (hi : i < html.length) :
    parse_step_chk html st i = some (parse_step html st i) := by
  unfold parse_step_chk parse_step read_at
  rw [List.getElem?_eq_getElem hi]
  simp only [closing_chk_eq, tagname_loop_chk_eq, scan_href_chk_eq, Option.map_some']
  split_ifs <;> rfl

theorem parse_loop_chk_eq (html : Str) (is : List Nat) (st : ParseState)
    (h : ∀ i ∈ is, i < html.length) :
    parse_loop_chk html is st = some (is.foldl (parse_step html) st) := by
  induction is generalizing st with
  | nil => rfl
  | cons i r ih =>
    rw [parse_loop_chk, parse_step_chk_eq html st i (h i (List.mem_cons_self _ _))]
    exact ih _ (fun k hk => h k (List.mem_cons_of_mem _ hk))

/-! ## Focus and text buffers under the handlers -/

theorem clamp_scroll_focus (s : Session) :
    (clamp_scroll s).url_active = s.url_active ∧
    (clamp_scroll s).search_active = s.search_active := by
  unfold clamp_scroll
  split <;> simp

theorem handle_event_focus (load : Str → Str) (start_url : Str) (s : Session) (e : Event)
    (he : e ≠ Event.keyDown Key.tab) :
    (handle_event load start_url s e).url_active = s.url_active ∧
    (handle_event load start_url s e).search_active = s.search_active := by
  cases e with
  | quit => exact ⟨rfl, rfl⟩
  | textInput t =>
    simp only [handle_event]
    split
    · exact ⟨rfl, rfl⟩
    · split <;> exact ⟨rfl, rfl⟩
  | keyDown k =>
    cases k with
    | tab => exact absurd rfl he
    | backspace =>
      simp only [handle_event, key_down, (clamp_scroll_focus _).1, (clamp_scroll_focus _).2]
      split <;> split <;> exact ⟨rfl, rfl⟩
    | ret =>
      simp only [handle_event, key_down, (clamp_scroll_focus _).1, (clamp_scroll_focus _).2]
      split
      · exact ⟨rfl, rfl⟩
      · split <;> exact ⟨rfl, rfl⟩
    | down => simp [handle_event, key_down, (clamp_scroll_focus _).1, (clamp_scroll_focus _).2]
    | up => simp [handle_event, key_down, (clamp_scroll_focus _).1, (clamp_scroll_focus _).2]
    | other => simp [handle_event, key_down, (clamp_scroll_focus _).1, (clamp_scroll_focus _).2]
  | mouseWheel y =>
    simp [handle_event, (clamp_scroll_focus _).1, (clamp_scroll_focus _).2]
  | mouseButtonDown x y => exact ⟨rfl, rfl⟩
  | other => exact ⟨rfl, rfl⟩

theorem handle_event_tab (load : Str → Str) (start_url : Str) (s : Session) :
    (handle_event load start_url s (Event.keyDown Key.tab)).url_active = !s.url_active ∧
    (handle_event load start_url s (Event.keyDown Key.tab)).search_active
      = !s.search_active := by
  simp [handle_event, key_down, (clamp_scroll_focus _).1, (clamp_scroll_focus _).2]

theorem handle_event_one_focus (load : Str → Str) (start_url : Str) (s : Session) (e : Event)
    (h : s.url_active = !s.search_active) :
    (handle_event load start_url s e).url_active
      = !(handle_event load start_url s e).search_active := by
  by_cases he : e = Event.keyDown Key.tab
  · subst he
    rw [(handle_event_tab load start_url s).1, (handle_event_tab load start_url s).2, h]
  · rw [(handle_event_focus load start_url s e he).1,
      (handle_event_focus load start_url s e he).2, h]

theorem run_one_focus (load : Str → Str) (start_url : Str) (es : List Event) (s : Session)
    (h : s.url_active = !s.search_active) :
    (run load start_url s es).url_active = !(run load start_url s es).search_active := by
  induction es generalizing s with
  | nil => exact h
  | cons e es ih => exact ih _ (handle_event_one_focus load start_url s e h)

/-! ## A click on the plus button -/

theorem tab_loop_right_of_slots (mx my : Int) (tabs : List Tab) (cur : Int)
    (hx : 150 * (tabs.length : Int) ≤ mx) (fuel i : Nat) (hi : i ≤ tabs.length)
    (hf : tabs.length ≤ i + fuel) :
    tab_loop mx my fuel i (150 * (i : Int)) tabs cur
      = (tabs, cur, 150 * (tabs.length : Int)) := by
  induction fuel generalizing i with
  | zero =>
    have : i = tabs.length := by omega
    rw [tab_loop, this]
  | succ n ih =>
    rw [tab_loop]
    split
    · rename_i hlt
      have h1 : in_rect mx my (150 * (i : Int)) 0 150 tab_height = false := by
        simp only [in_rect, decide_eq_false_iff_not]
        omega
      have h2 : in_rect mx my (150 * (i : Int) + 140) 0 10 tab_height = false := by
        simp only [in_rect, decide_eq_false_iff_not]
        omega
      simp only [h1, h2, Bool.false_eq_true, if_false]
      have h3 := ih (i + 1) (by omega) (by omega)
      rw [show 150 * ((i + 1 : Nat) : Int) = 150 * (i : Int) + 150 by push_cast; ring] at h3
      exact h3
    · have : i = tabs.length := by omega
      rw [this]

theorem plus_click_unscrolled (load : Str → Str) (start_url : Str) (s : Session)
    (mx my : Int) (hx1 : 150 * (s.tabs.length : Int) ≤ mx)
    (hx2 : mx < 150 * (s.tabs.length : Int) + 18) (hy1 : 0 ≤ my) (hy2 : my < 18)
    (hsc : s.scroll_offset ≤ 36) :
    handle_event load start_url s (Event.mouseButtonDown mx my) =
      { s with
        tabs := s.tabs ++
          [⟨start_url, "Start Page".toList, parse_html (load start_url)⟩]
        current_tab := (s.tabs.length : Int) } := by
  have hloop := tab_loop_right_of_slots mx my s.tabs s.current_tab hx1 s.tabs.length 0
    (Nat.zero_le _) (by omega)
  simp only [Nat.cast_zero, mul_zero] at hloop
  have hplus : in_rect mx my (150 * (s.tabs.length : Int)) 0 18 tab_height = true := by
    simp only [in_rect, tab_height, decide_eq_true_eq]
    omega
  simp only [handle_event, mouse_down, hloop, hplus, if_true]
  rw [link_loop_above _ _ _ _ _ _ _ (by simp only [tab_height, url_height, search_height]; omega)]
  simp [open_tab]

/-! ## The checked handlers agree with the handlers -/

theorem int32_eq_some (x : Int) (h : fits_int32 x) : int32 x = some x := by
  rw [int32, if_pos h]

theorem in_rect_chk_eq (mx my x y w h : Int) (h1 : fits_int32 (x + w))
    (h2 : fits_int32 (y + h)) :
    in_rect_chk mx my x y w h = some (in_rect mx my x y w h) := by
  unfold in_rect_chk in_rect
  rw [int32_eq_some _ h1, int32_eq_some _ h2]
  by_cases a : mx ≥ x <;> by_cases b : mx < x + w <;> by_cases c : my ≥ y <;> simp [a, b, c]

theorem in_rect_chk_below_bar (mx my x w : Int) (hbar : 18 ≤ my)
    (hf : fits_int32 (x + w)) : in_rect_chk mx my x 0 w tab_height = some false := by
  rw [in_rect_chk_eq _ _ _ _ _ _ hf (by decide)]
  congr 1
  simp only [in_rect, tab_height, decide_eq_false_iff_not]
  omega

theorem tab_loop_chk_below_bar (mx my : Int) (tabs : List Tab) (cur : Int) (hbar : 18 ≤ my)
    (hn : 150 * (tabs.length : Int) + 18 ≤ 2147483647) (fuel i : Nat)
    (hi : i ≤ tabs.length) (hf : tabs.length ≤ i + fuel) :
    tab_loop_chk mx my fuel i (150 * (i : Int)) tabs cur
      = some (tabs, cur, 150 * (tabs.length : Int)) := by
  induction fuel generalizing i with
  | zero =>
    have : i = tabs.length := by omega
    rw [tab_loop_chk, this]
  | succ n ih =>
    rw [tab_loop_chk]
    split
    · rename_i hlt
      have f1 : fits_int32 (150 * (i : Int) + 140) := by
        unfold fits_int32
        omega
      have f2 : fits_int32 (150 * (i : Int) + 150) := by
        unfold fits_int32
        omega
      have f3 : fits_int32 (150 * (i : Int) + 140 + 10) := by
        unfold fits_int32
        omega
      rw [int32_eq_some _ f1, int32_eq_some _ f2, in_rect_chk_below_bar _ _ _ _ hbar f2]
      simp only
      rw [in_rect_chk_below_bar _ _ _ _ hbar f3]
      simp only [Bool.false_eq_true, if_false]
      have h3 := ih (i + 1) (by omega) (by omega)
      rw [show 150 * ((i + 1 : Nat) : Int) = 150 * (i : Int) + 150 by push_cast; ring] at h3
      exact h3
    · have : i = tabs.length := by omega
      rw [this]

theorem link_loop_chk_hit (load : Str → Str) (mx my cur : Int) (pre : List DisplayItem)
    (it : DisplayItem) (y : Int) (acc : List Tab × Int) (hl : it.link ≠ [])
    (hpre : ∀ f ∈ pre, (f.text.length : Int) * 8 + 10 ≤ 2147483647)
    (hit : (it.text.length : Int) * 8 + 10 ≤ 2147483647)
    (hx1 : 10 ≤ mx) (hx2 : mx < 10 + (it.text.length : Int) * 8)
    (hy1 : 54 + y + 10 * (pre.length : Int) ≤ my)
    (hy2 : my < 54 + y + 10 * (pre.length : Int) + 8)
    (hmy : my + 8 ≤ 2147483647) (hy0 : -2147483648 ≤ y) :
    link_loop_chk load mx my cur (pre ++ [it]) y acc
      = some (follow_link load acc.1 cur it.link) := by
  have hw : ∀ f : DisplayItem, (f.text.length : Int) * 8 + 10 ≤ 2147483647 →
      wrap32 ((f.text.length : Int) * 8) = (f.text.length : Int) * 8 := by
    intro f hf
    apply wrap32_of_fits
    unfold fits_int32
    omega
  induction pre generalizing y with
  | nil =>
    simp only [List.length_nil, Nat.cast_zero, mul_zero, add_zero] at hy1 hy2
    have f1 : fits_int32 (tab_height + url_height + search_height + 4 + y) := by
      simp only [fits_int32, tab_height, url_height, search_height]
      omega
    have f2 : fits_int32 (10 + wrap32 ((it.text.length : Int) * 8)) := by
      rw [hw it hit]
      unfold fits_int32
      omega
    have f3 : fits_int32 (tab_height + url_height + search_height + 4 + y + 8) := by
      simp only [fits_int32, tab_height, url_height, search_height]
      omega
    have f4 : fits_int32 (y + 10) := by
      unfold fits_int32
      omega
    have hin : in_rect mx my 10 (tab_height + url_height + search_height + 4 + y)
        (wrap32 ((it.text.length : Int) * 8)) 8 = true := by
      rw [hw it hit]
      simp only [in_rect, tab_height, url_height, search_height, decide_eq_true_eq]
      omega
    rw [List.nil_append, link_loop_chk, if_pos hl, int32_eq_some _ f1]
    simp only
    rw [in_rect_chk_eq _ _ _ _ _ _ f2 f3, int32_eq_some _ f4, hin]
    simp
  | cons p pre ih =>
    simp only [List.length_cons, Nat.cast_add, Nat.cast_one] at hy1 hy2
    have hp := hpre p (List.mem_cons_self _ _)
    have f1 : fits_int32 (tab_height + url_height + search_height + 4 + y) := by
      simp only [fits_int32, tab_height, url_height, search_height]
      omega
    have f2 : fits_int32 (10 + wrap32 ((p.text.length : Int) * 8)) := by
      rw [hw p hp]
      unfold fits_int32
      omega
    have f3 : fits_int32 (tab_height + url_height + search_height + 4 + y + 8) := by
      simp only [fits_int32, tab_height, url_height, search_height]
      omega
    have f4 : fits_int32 (y + 10) := by
      unfold fits_int32
      omega
    have hin : in_rect mx my 10 (tab_height + url_height + search_height + 4 + y)
        (wrap32 ((p.text.length : Int) * 8)) 8 = false := by
      simp only [in_rect, tab_height, url_height, search_height, decide_eq_false_iff_not]
      omega
    have hnext := ih (y + 10) (fun f hf => hpre f (List.mem_cons_of_mem _ hf))
      (by omega) (by omega) (by omega)
    rw [List.cons_append, link_loop_chk]
    split
    · rw [int32_eq_some _ f1]
      simp only
      rw [in_rect_chk_eq _ _ _ _ _ _ f2 f3, int32_eq_some _ f4, hin]
      exact hnext
    · rw [int32_eq_some _ f4]
      exact hnext

/-! ## The example runs are defined -/

theorem page_runs_defined :
    run_chk page_load "file:///s".toList (initial_session page_load "file:///s".toList)
        [Event.keyDown Key.down, Event.keyDown Key.down, Event.keyDown Key.down,
          Event.keyDown Key.down, Event.keyDown Key.down, Event.keyDown Key.down,
          Event.mouseButtonDown 150 0]
      = some (page_run [Event.keyDown Key.down, Event.keyDown Key.down, Event.keyDown Key.down,
          Event.keyDown Key.down, Event.keyDown Key.down, Event.keyDown Key.down,
          Event.mouseButtonDown 150 0]) ∧
    run_chk page_load "file:///s".toList (initial_session page_load "file:///s".toList)
        [Event.keyDown Key.down, Event.mouseButtonDown 10 44]
      = some (page_run [Event.keyDown Key.down, Event.mouseButtonDown 10 44]) ∧
    handle_event_chk (fun u => u) [] three_tabs (Event.mouseButtonDown 145 5)
      = some (handle_event (fun u => u) [] three_tabs (Event.mouseButtonDown 145 5)) := by
  decide

/-! ## Claims -/

/-- C1. Tab-index invariant: after any finite sequence of input events from the initial
session (one tab, `current_tab = 0`), the tab list is non-empty and
`0 ≤ current_tab < tabs.size()`. -/
theorem tab_index_invariant (load : Str → Str) (start_url : Str) (es : List Event) :
    (run load start_url (initial_session load start_url) es).tabs ≠ [] ∧
    0 ≤ (run load start_url (initial_session load start_url) es).current_tab ∧
    (run load start_url (initial_session load start_url) es).current_tab <
      ((run load start_url (initial_session load start_url) es).tabs.length : Int) := by
  have h := run_valid load start_url es (initial_session load start_url)
    (by simp [valid_index, initial_session])
  refine ⟨?_, h.1, h.2⟩
  intro hnil
  have h2 := h.2
  rw [hnil] at h2
  have h1 := h.1
  simp at h2
  omega

/-- C2. The close block on a valid slot `i`: a one-tab session is left unchanged, also
under any further sequence of close blocks; otherwise exactly tab `i` is removed, the
others keeping their order, and the current index becomes `max(0, i-1)` when it was `i`,
`current-1` when `i` was before it, and is unchanged when `i` was after it.  For three
tabs with `current = 2`, closing slot `0` gives `current = 1`. -/
theorem close_tab_index_rule (tabs : List Tab) (current_tab : Int) (i : Nat)
    (hi : i < tabs.length) :
    (tabs.length = 1 →
      close_tab tabs current_tab i = (tabs, current_tab) ∧
      ∀ js : List Nat,
        js.foldl (fun p j => close_tab p.1 p.2 j) (tabs, current_tab) = (tabs, current_tab)) ∧
    (tabs.length ≠ 1 →
      (close_tab tabs current_tab i).1 = tabs.take i ++ tabs.drop (i + 1) ∧
      (close_tab tabs current_tab i).2 =
        if (i : Int) = current_tab then max 0 ((i : Int) - 1)
        else if (i : Int) < current_tab then current_tab - 1
        else current_tab) ∧
    (∀ a b c : Tab, (close_tab [a, b, c] 2 0).2 = 1) := by
  refine ⟨?_, ?_, ?_⟩
  · intro h1
    have hstep : ∀ j : Nat, close_tab tabs current_tab j = (tabs, current_tab) := by
      intro j
      simp [close_tab, h1]
    refine ⟨hstep i, ?_⟩
    intro js
    induction js with
    | nil => rfl
    | cons j js ih => simpa [List.foldl, hstep j] using ih
  · intro hne
    have hgt : tabs.length > 1 := by omega
    refine ⟨?_, ?_⟩
    · simp [close_tab, hgt, List.eraseIdx_eq_take_drop_succ]
    · simp only [close_tab, hgt, if_true]
      by_cases hc : current_tab = (i : Int)
      · subst hc
        by_cases h0 : i = 0
        · simp [h0]
        · have : (0 : Int) ≤ (i : Int) - 1 := by omega
          simp [h0, max_eq_right this]
      · have hc2 : ¬ ((i : Int) = current_tab) := fun h => hc h.symm
        simp only [hc, hc2, if_false]
  · intro a b c
    simp [close_tab]

/-- Witness of `close_tab_index_rule`: slot `1` of a two-tab list. -/
theorem close_tab_index_rule_witness :
    (1 < ([⟨[], [], []⟩, ⟨['x'], [], []⟩] : List Tab).length) ∧
    (close_tab [⟨[], [], []⟩, ⟨['x'], [], []⟩] 0 1).1 = [⟨[], [], []⟩] ∧
    (close_tab [⟨[], [], []⟩, ⟨['x'], [], []⟩] 0 1).2 = 0 :=
  ⟨by decide,
   ((close_tab_index_rule [⟨[], [], []⟩, ⟨['x'], [], []⟩] 0 1 (by decide)).2.1 (by decide)).1,
   ((close_tab_index_rule [⟨[], [], []⟩, ⟨['x'], [], []⟩] 0 1 (by decide)).2.1 (by decide)).2⟩

/-- C3. A click at `(145, 5)`, on the close button of slot `0`, in a three-tab session
whose current tab is the last one: the handler selects slot `0` before it closes it, so
the current index ends at `0`, while the close block on the session as it was gives `1`. -/
theorem close_click_selects_first :
    (handle_event (fun u => u) [] three_tabs (Event.mouseButtonDown 145 5)).tabs
        = [⟨['b'], ['b'], []⟩, ⟨['c'], ['c'], []⟩] ∧
    (handle_event (fun u => u) [] three_tabs (Event.mouseButtonDown 145 5)).current_tab = 0 ∧
    close_tab three_tabs.tabs three_tabs.current_tab 0
        = ([⟨['b'], ['b'], []⟩, ⟨['c'], ['c'], []⟩], 1) := by
  decide


/-- C4. Enter with the URL bar focused and a non-empty URL buffer `s`, for any fetch
function: the current tab becomes `(n, n, parse_html (load n))` with `n` the normalized
`s`, `scroll_offset` becomes `0` and the URL buffer is emptied; the other tabs, the number
of tabs, the current index, the focus and the search buffer are unchanged. -/
theorem navigate_effect_frame (load : Str → Str) (start_url : Str) (s : Session)
    (hf : s.url_active = true) (hb : s.url_text ≠ [])
    (hv : valid_index s.tabs s.current_tab) :
    handle_event load start_url s (Event.keyDown Key.ret) =
      { s with
        tabs := s.tabs.set s.current_tab.toNat
          ⟨normalize s.url_text, normalize s.url_text,
            parse_html (load (normalize s.url_text))⟩
        scroll_offset := 0
        url_text := [] } ∧
    tab_at (handle_event load start_url s (Event.keyDown Key.ret)).tabs s.current_tab =
      some ⟨normalize s.url_text, normalize s.url_text,
        parse_html (load (normalize s.url_text))⟩ ∧
    (∀ k : Nat, (k : Int) ≠ s.current_tab →
      (handle_event load start_url s (Event.keyDown Key.ret)).tabs[k]? = s.tabs[k]?) ∧
    (handle_event load start_url s (Event.keyDown Key.ret)).tabs.length = s.tabs.length := by
  have hnav : handle_event load start_url s (Event.keyDown Key.ret) =
      { s with
        tabs := s.tabs.set s.current_tab.toNat
          ⟨normalize s.url_text, normalize s.url_text,
            parse_html (load (normalize s.url_text))⟩
        scroll_offset := 0
        url_text := [] } := by
    simp only [handle_event]
    rw [key_ret_url load s hf hb]
    simp [navigate, load_into, set_tab_eq _ _ _ hv.1]
  have hlt : s.current_tab.toNat < s.tabs.length := by
    have := hv.1
    have := hv.2
    omega
  rw [hnav]
  refine ⟨rfl, ?_, ?_, ?_⟩
  · simp [tab_at, hv.1, hlt]
  · intro k hk
    have hne : s.current_tab.toNat ≠ k := by
      have := hv.1
      omega
    simp [List.getElem?_set_ne hne]
  · simp

/-- Witness of `navigate_effect_frame`: Enter on `x` typed into the URL bar of a one-tab
session. -/
theorem navigate_effect_frame_witness :
    (handle_event (fun u => u) [] { link_session with url_active := true }
      (Event.keyDown Key.ret)).tabs.length = 1 :=
  (navigate_effect_frame (fun u => u) [] { link_session with url_active := true }
    rfl (by decide) ⟨by decide, by decide⟩).2.2.2

/-- C5, counterexample. `httpbin.org` is non-empty and starts with none of `http://`,
`https://`, `file://`, yet it is left as it is instead of getting `http://` in front. -/
theorem normalize_httpbin :
    "httpbin.org".toList ≠ [] ∧
    ¬ ("http://".toList <+: "httpbin.org".toList) ∧
    ¬ ("https://".toList <+: "httpbin.org".toList) ∧
    ¬ ("file://".toList <+: "httpbin.org".toList) ∧
    normalize "httpbin.org".toList = "httpbin.org".toList ∧
    normalize "httpbin.org".toList ≠ "http://".toList ++ "httpbin.org".toList := by
  decide

/-- C5, amended. For every `s`, empty or not, the normalized URL is `s` when `s` starts with
`http` or with `file://` (so also when it starts with `http://` or `https://`), and
`http://` followed by `s` in every other case; `example.com` becomes
`http://example.com` and `file:///tmp/x.html` is unchanged. -/
theorem normalize_rule (s : Str) :
    ("http".toList <+: s ∨ "file://".toList <+: s → normalize s = s) ∧
    ("http://".toList <+: s ∨ "https://".toList <+: s ∨ "file://".toList <+: s →
      normalize s = s) ∧
    (¬ ("http".toList <+: s ∨ "file://".toList <+: s) →
      normalize s = "http://".toList ++ s) ∧
    normalize "example.com".toList = "http://example.com".toList ∧
    normalize "file:///tmp/x.html".toList = "file:///tmp/x.html".toList := by
  refine ⟨?_, ?_, ?_, by decide, by decide⟩
  · intro h
    rw [normalize_eq, if_pos h]
  · intro h
    rw [normalize_eq, if_pos]
    rcases h with h | h | h
    · exact Or.inl (List.IsPrefix.trans (by decide) h)
    · exact Or.inl (List.IsPrefix.trans (by decide) h)
    · exact Or.inr h
  · intro h
    rw [normalize_eq, if_neg h]

/-- Witness of `normalize_rule`: `https://a` is left as it is. -/
theorem normalize_rule_witness :
    normalize "https://a".toList = "https://a".toList :=
  (normalize_rule "https://a".toList).2.1 (Or.inr (Or.inl (by decide)))

/-- C6, counterexample. Enter in the focused search bar with `q` typed there and `x` left
in the URL bar: the session is not the one `navigate` gives for the search URL with the
search buffer emptied; the title is `Search`, not the URL, and the URL buffer keeps `x`. -/
theorem search_differs_from_navigate :
    handle_event (fun u => u) [] link_session (Event.keyDown Key.ret) ≠
      { navigate (fun u => u) link_session
          ("https://www.google.com/search?q=".toList ++ link_session.search_text) with
        search_text := [] } ∧
    (handle_event (fun u => u) [] link_session (Event.keyDown Key.ret)).tabs.map Tab.title
      = ["Search".toList] ∧
    (handle_event (fun u => u) [] link_session (Event.keyDown Key.ret)).url_text = ['x'] ∧
    (navigate (fun u => u) link_session
      ("https://www.google.com/search?q=".toList ++ link_session.search_text)).tabs.map Tab.title
      = ["https://www.google.com/search?q=q".toList] ∧
    (navigate (fun u => u) link_session
      ("https://www.google.com/search?q=".toList ++ link_session.search_text)).url_text = [] := by
  decide

/-- C6, amended. Enter with the search bar focused and a non-empty search buffer `q`, for
any fetch function and `u` the search URL for `q`: the current tab gets url `u`, title
`Search` and items `parse_html (load u)`, `scroll_offset` becomes `0`, the search buffer is
emptied and everything else, the URL buffer included, is unchanged.  This is the session
`navigate` gives for `u` except for the title of the current tab, which `navigate` sets to
`u`, and the two buffers: `navigate` empties the URL buffer and keeps the search buffer. -/
theorem submit_search_effect (load : Str → Str) (start_url : Str) (s : Session)
    (hu : s.url_active = false) (hs : s.search_active = true) (hq : s.search_text ≠ [])
    (hv : valid_index s.tabs s.current_tab) :
    handle_event load start_url s (Event.keyDown Key.ret) =
      { s with
        tabs := s.tabs.set s.current_tab.toNat
          ⟨"https://www.google.com/search?q=".toList ++ s.search_text, "Search".toList,
            parse_html (load ("https://www.google.com/search?q=".toList ++ s.search_text))⟩
        scroll_offset := 0
        search_text := [] } ∧
    navigate load s ("https://www.google.com/search?q=".toList ++ s.search_text) =
      { s with
        tabs := s.tabs.set s.current_tab.toNat
          ⟨"https://www.google.com/search?q=".toList ++ s.search_text,
            "https://www.google.com/search?q=".toList ++ s.search_text,
            parse_html (load ("https://www.google.com/search?q=".toList ++ s.search_text))⟩
        scroll_offset := 0
        url_text := [] } := by
  have hn : normalize ("https://www.google.com/search?q=".toList ++ s.search_text) =
      "https://www.google.com/search?q=".toList ++ s.search_text := by
    rw [normalize_eq, if_pos]
    exact Or.inl (List.IsPrefix.trans (by decide)
      (List.prefix_append "https://www.google.com/search?q=".toList s.search_text))
  constructor
  · simp only [handle_event]
    rw [key_ret_search load s hu hs hq]
    simp [submit_search, load_into, set_tab_eq _ _ _ hv.1]
  · simp only [navigate, hn, load_into, set_tab_eq _ _ _ hv.1]

/-- Witness of `submit_search_effect`: Enter on `q` typed into the focused search bar. -/
theorem submit_search_effect_witness :
    (handle_event (fun u => u) [] link_session (Event.keyDown Key.ret)).search_text = [] :=
  congrArg Session.search_text
    (submit_search_effect (fun u => u) [] link_session rfl rfl (by decide)
      ⟨by decide, by decide⟩).1

/-- C7, counterexample. A click at `(10, 54)` on the link of the page, its only fragment,
with `x` typed in the URL bar: the behaviour is defined, and the session differs from the
one `navigate` gives for the link, because the URL buffer still holds `x`. -/
theorem link_click_keeps_url_buffer :
    handle_event_chk (fun u => u) [] link_session (Event.mouseButtonDown 10 54) =
      some (handle_event (fun u => u) [] link_session (Event.mouseButtonDown 10 54)) ∧
    handle_event (fun u => u) [] link_session (Event.mouseButtonDown 10 54) ≠
      navigate (fun u => u) link_session ['h', 't', 't', 'p', ':', 'y'] ∧
    (handle_event (fun u => u) [] link_session (Event.mouseButtonDown 10 54)).url_text = ['x'] ∧
    (navigate (fun u => u) link_session ['h', 't', 't', 'p', ':', 'y']).url_text = [] := by
  decide

/-- C7, amended. For fragment `k` of the current tab, whose link is non-empty, and any
fetch function: following the link (the body of the link loop for that fragment, lines 207
to 213) gives the session `navigate` gives for that link (normalized link as url and title,
its parsed content, `scroll_offset = 0`, all other tabs, the current index, the focus and
the search buffer as before) except that the URL buffer is left as it was.  When the
fragment is the last one of the page, so that the loop ends right after the page was
replaced, and all `int` values of the handler are in range, that is the whole effect of
every click on that fragment that lies below the tab bar, with defined behaviour. -/
theorem click_link_effect (load : Str → Str) (start_url : Str) (s : Session) (t : Tab)
    (k : Nat) (it : DisplayItem)
    (ht : tab_at s.tabs s.current_tab = some t) (hk : t.items[k]? = some it)
    (hl : it.link ≠ []) :
    { s with
      tabs := (follow_link load s.tabs s.current_tab it.link).1
      scroll_offset := (follow_link load s.tabs s.current_tab it.link).2 }
      = { navigate load s it.link with url_text := s.url_text } ∧
    ∀ mx my : Int,
      k + 1 = t.items.length →
      (∀ f ∈ t.items, (f.text.length : Int) * 8 + 10 ≤ 2147483647) →
      150 * (s.tabs.length : Int) + 18 ≤ 2147483647 →
      0 ≤ s.scroll_offset → s.scroll_offset ≤ 2147483647 →
      10 ≤ mx → mx < 10 + (it.text.length : Int) * 8 →
      54 - s.scroll_offset + 10 * (k : Int) ≤ my →
      my < 54 - s.scroll_offset + 10 * (k : Int) + 8 →
      18 ≤ my → my + 8 ≤ 2147483647 →
      handle_event_chk load start_url s (Event.mouseButtonDown mx my) =
        some { navigate load s it.link with url_text := s.url_text } := by
  refine ⟨by simp [follow_link, navigate], ?_⟩
  intro mx my hlast hlens htabs hs0 hs1 hx1 hx2 hy1 hy2 hbar hmy
  have hlen : k < t.items.length := by
    rcases List.getElem?_eq_some.mp hk with ⟨h, _⟩
    exact h
  have hsplit : t.items = t.items.take k ++ [it] := by
    have h1 : t.items[k] = it := by
      rcases List.getElem?_eq_some.mp hk with ⟨_, h⟩
      exact h
    have hd : t.items.drop (k + 1) = [] := List.drop_eq_nil_of_le (by omega)
    rw [← h1, ← hd, ← List.drop_eq_getElem_cons hlen, List.take_append_drop]
  have hpre : (t.items.take k).length = k := by
    rw [List.length_take]
    omega
  have hloop := tab_loop_chk_below_bar mx my s.tabs s.current_tab hbar htabs
    s.tabs.length 0 (Nat.zero_le _) (by omega)
  simp only [Nat.cast_zero, mul_zero] at hloop
  have hplus : in_rect_chk mx my (150 * (s.tabs.length : Int)) 0 18 tab_height = some false :=
    in_rect_chk_below_bar _ _ _ _ hbar (by unfold fits_int32; omega)
  have hy : int32 (0 - s.scroll_offset) = some (0 - s.scroll_offset) :=
    int32_eq_some _ (by unfold fits_int32; omega)
  have hhit := link_loop_chk_hit load mx my s.current_tab (t.items.take k) it
    (0 - s.scroll_offset) (s.tabs, s.scroll_offset) hl
    (fun f hf => hlens f (List.mem_of_mem_take hf))
    (hlens it (List.getElem?_mem hk)) hx1 hx2
    (by rw [hpre]; omega) (by rw [hpre]; omega) hmy (by omega)
  rw [← hsplit] at hhit
  simp only [handle_event_chk, mouse_down_chk, hloop, hplus, Bool.false_eq_true, if_false,
    ht, hy, hhit, Option.map_some']
  simp [follow_link, navigate]

/-- Witness of `click_link_effect`: the click at `(10, 54)` on the link of `link_session`. -/
theorem click_link_effect_witness :
    handle_event_chk (fun u => u) [] link_session (Event.mouseButtonDown 10 54) =
      some { navigate (fun u => u) link_session ['h', 't', 't', 'p', ':', 'y'] with
        url_text := link_session.url_text } :=
  (click_link_effect (fun u => u) [] link_session
    ⟨['u'], ['t'], [⟨['a', 'b'], ['h', 't', 't', 'p', ':', 'y']⟩]⟩ 0
    ⟨['a', 'b'], ['h', 't', 't', 'p', ':', 'y']⟩
    (by decide) (by decide) (by decide)).2 10 54
    (by decide) (by decide) (by decide) (by decide) (by decide) (by decide) (by decide)
    (by decide) (by decide) (by decide) (by decide)

/-- C9. Anchor extraction: for an href value `u` without `"`, `<`, `>`, a non-empty text
`t` without `<`, `>`, and the tag letter `a` or `A` in the opening and in the closing tag,
`parse_html` of `<a href="u">t</a>` is the single fragment with text `t` and link `u`;
`<a href="http://x">click</a>` gives text `click` with link `http://x`. -/
theorem anchor_extraction (o c : Char) (u t : Str) (ho : o = 'a' ∨ o = 'A')
    (hc : c = 'a' ∨ c = 'A') (hq : dquote ∉ u) (hu : bracket_free u) (ht0 : t ≠ [])
    (ht : bracket_free t) :
    parse_html
      (('<' :: o :: " href=\"".toList) ++ u ++ "\">".toList ++ t ++
        ("</".toList ++ [c] ++ ">".toList)) = [⟨t, u⟩] ∧
    parse_html "<a href=\"http://x\">click</a>".toList
      = [⟨"click".toList, "http://x".toList⟩] := by
  have hform : (('<' :: o :: " href=\"".toList) ++ u ++ "\">".toList ++ t ++
      ("</".toList ++ [c] ++ ">".toList)) = anchor_markup o c u t := by
    simp [anchor_markup, dquote]
  rw [hform]
  exact ⟨parse_html_anchor o c u t ho hc hq hu ht0 ht, by decide⟩

/-- Witness of `anchor_extraction`: `<A href="x y">"z"</a>`. -/
theorem anchor_extraction_witness :
    parse_html "<A href=\"x y\">\"z\"</a>".toList = [⟨"\"z\"".toList, "x y".toList⟩] :=
  (anchor_extraction 'A' 'a' "x y".toList "\"z\"".toList (Or.inr rfl) (Or.inl rfl)
    (by decide) (by decide) (by decide) (by decide)).1

/-- C10. Text runs of anchor-free markup: for `t0 <body1> t1 ... <bodyn> tn` where no
`ti` and no `bodyi` holds `<` or `>` and no `bodyi` is that of an opening tag named `a`
(in either case), `parse_html` returns exactly the non-empty `ti`, in order, each with
an empty link.  The empty input gives no fragment, `<p>hello</p>` gives `hello`, and
`plain<br>text` gives `plain` and `text`. -/
theorem text_runs (t0 : Str) (segs : List (Str × Str)) (h0 : bracket_free t0)
    (hs : ∀ p ∈ segs, bracket_free p.1 ∧ bracket_free p.2 ∧ names_anchor p.1 = false) :
    parse_html (markup t0 segs) = text_items (t0 :: segs.map Prod.snd) ∧
    parse_html [] = [] ∧
    parse_html "<p>hello</p>".toList = [⟨"hello".toList, []⟩] ∧
    parse_html "plain<br>text".toList = [⟨"plain".toList, []⟩, ⟨"text".toList, []⟩] := by
  refine ⟨?_, by decide, by decide, by decide⟩
  rw [parse_html_eq_suffix, parse_suffix_markup segs t0 parse_init h0 hs rfl rfl]
  simp [parse_init]

/-- Witness of `text_runs`: `x</a>y<b>< A>z`, with a closing anchor, an empty text and a
tag whose name is empty. -/
theorem text_runs_witness :
    parse_html "x</a>y<b>< A>z".toList
      = [⟨['x'], []⟩, ⟨['y'], []⟩, ⟨['z'], []⟩] :=
  (text_runs ['x'] [("/a".toList, ['y']), (['b'], []), (" A".toList, ['z'])]
    (by decide) (by decide)).1

/-- C11, counterexample. In `<a href='x'>t</a>"y"` the href value has no quote or angle
bracket and the text no `"`, `<` or `>`, yet the first fragment is `t` with link `y`, the
text between the two double quotes of the suffix, and not `t` with an empty link. -/
theorem single_quoted_href_takes_later_quotes :
    single_quoted_anchor ['x'] ['t'] [dquote, 'y', dquote] = "<a href='x'>t</a>\"y\"".toList ∧
    dquote ∉ ['x'] ∧ squote ∉ ['x'] ∧ bracket_free ['x'] ∧
    ['t'] ≠ [] ∧ dquote ∉ ['t'] ∧ bracket_free ['t'] ∧
    (parse_html (single_quoted_anchor ['x'] ['t'] [dquote, 'y', dquote])).head?
      = some ⟨['t'], ['y']⟩ ∧
    (parse_html (single_quoted_anchor ['x'] ['t'] [dquote, 'y', dquote])).head?
      ≠ some ⟨['t'], []⟩ := by
  decide

/-- C11, amended. For every `u` without `"`, `<`, `>`, every non-empty `t` without `"`,
`<`, `>`, and every suffix `s` that holds at most one `"`, the first fragment of
`parse_html` of `<a href='u'>t</a>` followed by `s` is `t` with an empty link. -/
theorem single_quoted_href (u t s : Str) (hq : dquote ∉ u) (hu : bracket_free u)
    (ht0 : t ≠ []) (htq : dquote ∉ t) (ht : bracket_free t) (hs : s.count dquote ≤ 1) :
    (parse_html (single_quoted_anchor u t s)).head? = some ⟨t, []⟩ := by
  apply single_quoted_anchor_head u t s [] hu ht0 ht
  apply scan_href_unchanged
  have hcu : u.count dquote = 0 := List.count_eq_zero.mpr hq
  have hct : t.count dquote = 0 := List.count_eq_zero.mpr htq
  have hc : (single_quoted_anchor u t s).count dquote = s.count dquote := by
    simp only [dquote] at hcu hct
    simp [single_quoted_anchor, List.count_cons, dquote, squote]
    omega
  rw [hc]
  exact hs

/-- Witness of `single_quoted_href`: `<a href='x'>t</a>"b`, with one double quote after
the anchor. -/
theorem single_quoted_href_witness :
    (parse_html (single_quoted_anchor ['x'] ['t'] [dquote, 'b'])).head? = some ⟨['t'], []⟩ :=
  single_quoted_href ['x'] ['t'] [dquote, 'b'] (by decide) (by decide) (by decide)
    (by decide) (by decide) (by decide)

/-- C12. A closing anchor clears the link state: for every prefix `p` and every non-empty
text `t` without `<`, `>`, the last fragment of `parse_html` of `p`, then `</a>`, then `t`
is `t` with an empty link. -/
theorem closing_anchor_clears_link (p t : Str) (ht0 : t ≠ []) (ht : bracket_free t) :
    (parse_html (p ++ "</a>".toList ++ t)).getLast? = some ⟨t, []⟩ := by
  have e : p ++ "</a>".toList ++ t = p ++ ('<' :: '/' :: 'a' :: '>' :: (t ++ [])) := by
    simp
  obtain ⟨st, hst⟩ := parse_suffix_append p ('<' :: '/' :: 'a' :: '>' :: (t ++ [])) parse_init
  rw [parse_html_eq_suffix, e, hst, parse_suffix_close_anchor_rest 'a' (Or.inl rfl),
    parse_suffix_text _ _ _ ht rfl]
  simp only [parse_suffix, parse_finish, List.nil_append, push_item]
  rw [if_pos ht0]
  simp

/-- Witness of `closing_anchor_clears_link`: nested anchors and an unterminated tag in
front of `</a>z`. -/
theorem closing_anchor_clears_link_witness :
    (parse_html ("<a href=\"u\"><a href=\"v\">x<b".toList ++ "</a>".toList ++ ['z'])).getLast?
      = some ⟨['z'], []⟩ :=
  closing_anchor_clears_link "<a href=\"u\"><a href=\"v\">x<b".toList ['z'] (by decide)
    (by decide)

/-- C13. Missing href retains the previous href: for every `u` without `"`, `<`, `>` and
all non-empty `t1`, `t2` without `<`, `>`, `t2` not containing `href=` (and `t1`
containing it or not), `parse_html` of `<a href="u">t1</a><a>t2</a>` is `t1` with link `u`
followed by `t2` with link `u`. -/
theorem missing_href_retains (u t1 t2 : Str) (hq : dquote ∉ u) (hu : bracket_free u)
    (h10 : t1 ≠ []) (h1 : bracket_free t1) (h20 : t2 ≠ []) (h2 : bracket_free t2)
    (h2h : ¬ "href=".toList <:+: t2) :
    parse_html ("<a href=\"".toList ++ u ++ "\">".toList ++ t1 ++ "</a><a>".toList ++ t2 ++
      "</a>".toList) = [⟨t1, u⟩, ⟨t2, u⟩] := by
  have e : "<a href=\"".toList ++ u ++ "\">".toList ++ t1 ++ "</a><a>".toList ++ t2 ++
      "</a>".toList =
      '<' :: 'a' :: (" href=".toList ++ dquote :: (u ++ dquote :: '>' ::
        (t1 ++ '<' :: '/' :: 'a' :: '>' ::
          ('<' :: 'a' :: '>' :: (t2 ++ ['<', '/', 'a', '>']))))) := by
    simp [dquote]
  have hopen := parse_step_open_anchor 'a' '>' (t2 ++ ['<', '/', 'a', '>'])
    { items := [⟨t1, u⟩], in_tag := false, in_link := false, text := [], href := u }
    (Or.inl rfl) (by decide)
  rw [scan_href_bare_anchor t2 u h2h] at hopen
  have hb : bracket_free ['a'] := by decide
  have e2 : 'a' :: '>' :: (t2 ++ ['<', '/', 'a', '>']) = ['a'] ++ '>' :: (t2 ++ ['<', '/', 'a', '>']) :=
    rfl
  rw [parse_html_eq_suffix, e, parse_suffix_href_anchor 'a' u _ _ (Or.inl rfl) hq hu,
    parse_suffix_text _ _ _ h1 rfl, parse_suffix_close_anchor_rest 'a' (Or.inl rfl)]
  simp only [parse_init, List.nil_append, push_item, if_true, if_false, ne_eq,
    not_true_eq_false, h10, not_false_eq_true]
  rw [parse_suffix, hopen, e2, parse_suffix_tag _ _ _ hb rfl, parse_suffix_text _ _ _ h2 rfl,
    parse_suffix_close_anchor]
  · simp [parse_finish, push_item, h20]
  · exact Or.inl rfl

/-- Witness of `missing_href_retains`: `<a href="u">x</a><a>y</a>`. -/
theorem missing_href_retains_witness :
    parse_html "<a href=\"u\">x</a><a>y</a>".toList = [⟨['x'], ['u']⟩, ⟨['y'], ['u']⟩] :=
  missing_href_retains ['u'] ['x'] ['y'] (by decide) (by decide) (by decide) (by decide)
    (by decide) (by decide) (by decide)

/-- C14. Exactly one focus is active: after any sequence of input events from the initial
session (`url_active = true`, `search_active = false`) exactly one of `url_active` and
`search_active` is true, and the Tab key negates both, so it flips which one it is. -/
theorem exactly_one_focus (load : Str → Str) (start_url : Str) (es : List Event)
    (s : Session) :
    (initial_session load start_url).url_active = true ∧
    (initial_session load start_url).search_active = false ∧
    (((run load start_url (initial_session load start_url) es).url_active = true ∧
        (run load start_url (initial_session load start_url) es).search_active = false) ∨
      ((run load start_url (initial_session load start_url) es).url_active = false ∧
        (run load start_url (initial_session load start_url) es).search_active = true)) ∧
    (handle_event load start_url s (Event.keyDown Key.tab)).url_active = !s.url_active ∧
    (handle_event load start_url s (Event.keyDown Key.tab)).search_active
      = !s.search_active := by
  refine ⟨rfl, rfl, ?_, handle_event_tab load start_url s⟩
  have h := run_one_focus load start_url es (initial_session load start_url) rfl
  revert h
  cases (run load start_url (initial_session load start_url) es).url_active <;>
    cases (run load start_url (initial_session load start_url) es).search_active <;> simp

/-- C15. Text editing touches only the active buffer: in a session with exactly one focus
active (and `scroll_offset ≥ 0`), a text-input event appends its text to the buffer of the
focus; Backspace removes the last character of that buffer when it is non-empty and
changes nothing when it is empty; every other field of the session is as before. -/
theorem text_editing_active_buffer (load : Str → Str) (start_url : Str) (s : Session)
    (c : Str) (hone : s.url_active = !s.search_active) (hsc : 0 ≤ s.scroll_offset) :
    (s.url_active = true →
      handle_event load start_url s (Event.textInput c)
        = { s with url_text := s.url_text ++ c } ∧
      (s.url_text = [] →
        handle_event load start_url s (Event.keyDown Key.backspace) = s) ∧
      (∀ pre ch, s.url_text = pre ++ [ch] →
        handle_event load start_url s (Event.keyDown Key.backspace)
          = { s with url_text := pre })) ∧
    (s.search_active = true →
      handle_event load start_url s (Event.textInput c)
        = { s with search_text := s.search_text ++ c } ∧
      (s.search_text = [] →
        handle_event load start_url s (Event.keyDown Key.backspace) = s) ∧
      (∀ pre ch, s.search_text = pre ++ [ch] →
        handle_event load start_url s (Event.keyDown Key.backspace)
          = { s with search_text := pre })) := by
  have hnn : ¬ s.scroll_offset < 0 := not_lt.mpr hsc
  constructor
  · intro hu
    have hs : s.search_active = false := by
      rw [hu] at hone
      simpa using hone.symm
    refine ⟨by simp [handle_event, hu], ?_, ?_⟩
    · intro he
      simp [handle_event, key_down, clamp_scroll, hu, hs, he, hnn]
    · intro pre ch he
      simp [handle_event, key_down, clamp_scroll, hu, hs, he, hnn]
  · intro hs
    have hu : s.url_active = false := by
      rw [hs] at hone
      simpa using hone
    refine ⟨by simp [handle_event, hu, hs], ?_, ?_⟩
    · intro he
      simp [handle_event, key_down, clamp_scroll, hu, hs, he, hnn]
    · intro pre ch he
      simp [handle_event, key_down, clamp_scroll, hu, hs, he, hnn]

/-- Witness of `text_editing_active_buffer`: Backspace in the focused search bar of
`link_session` removes the `q` typed there. -/
theorem text_editing_active_buffer_witness :
    handle_event (fun u => u) [] link_session (Event.keyDown Key.backspace)
      = { link_session with search_text := [] } :=
  ((text_editing_active_buffer (fun u => u) [] link_session [] rfl (by decide)).2 rfl).2.2
    [] 'q' rfl

/-- C16. A click at `(150, 0)`, on the plus button of the one-tab session reached from the
example start page by six Down keys (`scroll_offset = 60`): the new tab is appended and
selected, and the same click then follows the link of the new page, whose rectangle lies
under the click, so the last tab ends with url `http://x` and the content fetched from
there instead of the parsed seed content. -/
theorem plus_click_follows_link :
    (page_run [Event.keyDown Key.down, Event.keyDown Key.down, Event.keyDown Key.down,
      Event.keyDown Key.down, Event.keyDown Key.down, Event.keyDown Key.down]).scroll_offset
        = 60 ∧
    (page_run [Event.keyDown Key.down, Event.keyDown Key.down, Event.keyDown Key.down,
      Event.keyDown Key.down, Event.keyDown Key.down, Event.keyDown Key.down,
      Event.mouseButtonDown 150 0]).tabs =
      [⟨"file:///s".toList, "Start Page".toList,
          [⟨"abcdefghijklmnopqrst".toList, "http://x".toList⟩]⟩,
        ⟨"http://x".toList, "http://x".toList, [⟨['y'], []⟩]⟩] ∧
    (page_run [Event.keyDown Key.down, Event.keyDown Key.down, Event.keyDown Key.down,
      Event.keyDown Key.down, Event.keyDown Key.down, Event.keyDown Key.down,
      Event.mouseButtonDown 150 0]).current_tab = 1 ∧
    parse_html (page_load "file:///s".toList)
      = [⟨"abcdefghijklmnopqrst".toList, "http://x".toList⟩] := by
  decide

/-- C17. Extracted text is the tag-stripped input: for every input, the text fields of
`parse_html`, concatenated in order, are the input without every `<`, every `>` and every
character whose nearest preceding angle bracket is a `<`; the remaining characters are
kept as they are and in order. -/
theorem text_is_tag_stripped (html : Str) :
    concat_texts (parse_html html) = tag_stripped html := by
  rw [parse_html_eq_suffix, concat_texts_suffix html [] parse_init (by decide)]
  simp [parse_init, concat_texts, tag_stripped]

/-- C18. Fragment well-formedness: for every input, every fragment of `parse_html` has a
non-empty text, and that text holds neither `<` nor `>`. -/
theorem fragments_well_formed (html : Str) :
    ∀ it ∈ parse_html html, it.text ≠ [] ∧ '<' ∉ it.text ∧ '>' ∉ it.text := by
  rw [parse_html_eq_suffix]
  exact parse_suffix_texts html parse_init (by simp [parse_init])
    (by simp [parse_init, bracket_free])

/-- Witness of `fragments_well_formed`: the fragment `hi` of `<p>hi</p>`. -/
theorem fragments_well_formed_witness :
    (⟨['h', 'i'], []⟩ : DisplayItem).text ≠ [] ∧
    '<' ∉ (⟨['h', 'i'], []⟩ : DisplayItem).text ∧
    '>' ∉ (⟨['h', 'i'], []⟩ : DisplayItem).text :=
  fragments_well_formed "<p>hi</p>".toList ⟨['h', 'i'], []⟩ (by decide)

/-- C19. A click at `(10, 44)`, inside the search bar and above the content area, in the
session reached from the example start page by one Down key (`scroll_offset = 10`): the
link of the page, drawn out of sight at `y = 44`, is followed, and the tab gets the url
`http://x`, that title and the content fetched from there. -/
theorem link_click_above_content :
    (page_run [Event.keyDown Key.down]).scroll_offset = 10 ∧
    (page_run [Event.keyDown Key.down]).tabs =
      [⟨"file:///s".toList, "Start Page".toList,
          [⟨"abcdefghijklmnopqrst".toList, "http://x".toList⟩]⟩] ∧
    (44 : Int) < tab_height + url_height + search_height + 4 ∧
    (page_run [Event.keyDown Key.down, Event.mouseButtonDown 10 44]).tabs =
      [⟨"http://x".toList, "http://x".toList, [⟨['y'], []⟩]⟩] := by
  decide

/-- C20. No access of `parse_html` is out of range: for every input the run with checked
accesses, which stops at any read `html[j]` with `j` not below `html.size()` and at any
`substr(start+1, end-start-1)` without `start < end < html.size()`, completes and returns
what `parse_html` returns; and whenever both quote positions of the href scan are found
they satisfy `start < end < html.size()`, so `start + 1 ≤ html.size()` and
`end - start - 1` does not underflow. -/
theorem parse_html_in_range (html : Str) :
    parse_html_chk html = some (parse_html html) ∧
    ∀ href_pos start stop : Nat,
      find_char html dquote href_pos = some start →
      find_char html dquote (start + 1) = some stop →
      start < stop ∧ stop < html.length ∧ start + 1 ≤ html.length ∧
      ((stop - start - 1 : Nat) : Int) = (stop : Int) - (start : Int) - 1 := by
  constructor
  · unfold parse_html_chk parse_html
    rw [parse_loop_chk_eq html _ _ (fun i hi => List.mem_range.mp hi)]
    rfl
  · intro p s e _ h2
    have h := href_positions html s e h2
    omega

/-- Witness of `parse_html_in_range`: in `<a href="u">` the quotes stand at 8 and 10. -/
theorem parse_html_in_range_witness :
    (8 : Nat) < 10 ∧ 10 < "<a href=\"u\">".toList.length :=
  ⟨((parse_html_in_range "<a href=\"u\">".toList).2 3 8 10 (by decide) (by decide)).1,
   ((parse_html_in_range "<a href=\"u\">".toList).2 3 8 10 (by decide) (by decide)).2.1⟩

end PBrowse
